import Mathlib

/-!
Verification of the cycle-detection program: a shallow embedding of
src/wei_parser.c and src/graph.c (value parser, identifier interning,
adjacency-list graph, DFS cycle detection), with theorems checking the
specification claims against it.
-/

-- # Wei value parser (src/wei_parser.c, parse_wei_optimized)

/-- C isdigit on the characters that can occur in a numeric token. -/
def isDigitChar (c : Char) : Bool := decide ('0' ≤ c) && decide (c ≤ '9')

/-- The value of a digit character, as computed by the C expression *p - 48. -/
def digitVal (c : Char) : Nat := c.toNat - 48

/-- C isspace in the default locale, used by strtol to skip leading blanks. -/
def isSpaceChar (c : Char) : Bool :=
  c = ' ' || c = '\t' || c = '\n' || c = '\x0b' || c = '\x0c' || c = '\r'

/-- One of the two exponent markers recognized by strpbrk(s, "eE"). -/
def isExpChar (c : Char) : Bool := c = 'e' || c = 'E'

/-- Splits a token at the first e/E, as strpbrk does: returns the mantissa
region (all characters before the marker) and, when a marker exists, the
suffix after it. -/
def splitAtExp : List Char → List Char × Option (List Char)
  | [] => ([], none)
  | c :: rest =>
    if isExpChar c then ([], some rest)
    else
      let r := splitAtExp rest
      (c :: r.1, r.2)

/-- The mantissa-scan accumulator of parse_wei_optimized: the big-integer
mantissa, the count of digits after the decimal point, and the two flags. -/
structure MScan where
  mantissa : Nat
  decimalPlaces : Nat
  dotFound : Bool
  hasDigits : Bool
deriving DecidableEq, Repr

/-- The mantissa loop of parse_wei_optimized over the region before any
exponent marker: digits accumulate into the mantissa, a single dot is
remembered, a sign is allowed only at the very first position, and any
other character aborts with the invalid-character error (modelled as none). -/
def scanMantissa : List Char → Bool → MScan → Option MScan
  | [], _, st => some st
  | c :: rest, atStart, st =>
    if isDigitChar c then
      scanMantissa rest false
        { mantissa := 10 * st.mantissa + digitVal c
          decimalPlaces := if st.dotFound then st.decimalPlaces + 1 else st.decimalPlaces
          dotFound := st.dotFound
          hasDigits := true }
    else if c = '.' && !st.dotFound then
      scanMantissa rest false { st with dotFound := true }
    else if (c = '+' || c = '-') && atStart then
      scanMantissa rest false st
    else
      none

/-- The digit-accumulation part of strtol base 10. -/
def strtolDigits : List Char → Nat → Nat
  | [], acc => acc
  | c :: rest, acc =>
    if isDigitChar c then strtolDigits rest (10 * acc + digitVal c) else acc

/-- The largest value of the 64-bit C long through which strtol returns
the exponent and in which final_power_of_10 is computed. -/
def LONG_MAX : Int := 9223372036854775807

/-- The smallest value of the 64-bit C long. -/
def LONG_MIN : Int := -9223372036854775808

/-- Saturation into the long range, as strtol does on overflow (it
returns LONG_MAX or LONG_MIN and sets ERANGE). -/
def clampLong (x : Int) : Int := max LONG_MIN (min x LONG_MAX)

/-- The mathematical value found by strtol before saturation: skip leading
whitespace, take an optional sign, accumulate leading digits; with no
digits the value is 0. -/
def strtolVal (s : List Char) : Int :=
  match s.dropWhile isSpaceChar with
  | '+' :: rest => (strtolDigits rest 0 : Int)
  | '-' :: rest => -(strtolDigits rest 0 : Int)
  | s1 => (strtolDigits s1 0 : Int)

/-- strtol(s, NULL, 10): the found value saturated into the long range, as
the C library defines it on overflow. -/
def strtol10 (s : List Char) : Int := clampLong (strtolVal s)

/-- parse_wei_optimized from src/wei_parser.c. The pow10 cache of the C
context is semantically the identity cache(i) = 10 ^ i, so both the cached
and the mpz_ui_pow_ui branch appear as 10 ^ n here; mpz_tdiv_qr on
nonnegative operands is Nat division with remainder. Returns the C error
codes -1 and -2 through Except. The C code computes final_power_of_10 =
exponent_val - decimal_places in long arithmetic and, in the division
branch, negates it into an unsigned long: when the subtraction underflows
the long range, or its result is exactly LONG_MIN so the negation
overflows, the program's behavior is undefined; those inputs are mapped
to the out-of-band marker -3, and no theorem asserts program behavior on
them. Everywhere else the long arithmetic is exact and the model is the
program. -/
def parse_wei_optimized (s : List Char) : Except Int Nat :=
  let sp := splitAtExp s
  match scanMantissa sp.1 true ⟨0, 0, false, false⟩ with
  | none => .error (-1)
  | some st =>
    if !st.hasDigits then .error (-1)
    else
      let exponent_val : Int := match sp.2 with
        | none => 0
        | some erest => strtol10 erest
      let final_power_of_10 : Int := exponent_val - (st.decimalPlaces : Int)
      if final_power_of_10 ≤ LONG_MIN then .error (-3)
      else if 0 < final_power_of_10 then
        .ok (st.mantissa * 10 ^ final_power_of_10.toNat)
      else if final_power_of_10 < 0 then
        let divisor := 10 ^ (-final_power_of_10).toNat
        if st.mantissa % divisor ≠ 0 then .error (-2)
        else .ok (st.mantissa / divisor)
      else
        .ok st.mantissa

-- # Syntactically valid tokens (the input grammar of §6 of the spec)

/-- An optional sign in front of a mantissa or an exponent. -/
inductive SignO | nosign | plus | minus
deriving DecidableEq, Repr

/-- The characters a sign renders to. -/
def SignO.render : SignO → List Char
  | .nosign => []
  | .plus => ['+']
  | .minus => ['-']

/-- The multiplicative value of a sign. -/
def SignO.val : SignO → Int
  | .minus => -1
  | _ => 1

/-- The character for a decimal digit below 10. -/
def digitChar : Nat → Char
  | 0 => '0' | 1 => '1' | 2 => '2' | 3 => '3' | 4 => '4'
  | 5 => '5' | 6 => '6' | 7 => '7' | 8 => '8' | _ => '9'

/-- The number denoted by a list of decimal digits, most significant first. -/
def digitsVal (ds : List Nat) : Nat := ds.foldl (fun a d => 10 * a + d) 0

/-- The characters of the optional fractional part. -/
def dotRender (fp : Option (List Nat)) : List Char :=
  match fp with
  | none => []
  | some f => '.' :: f.map digitChar

/-- The characters of the optional exponent part: marker, sign, digits. -/
def expRender (ex : Option (Char × SignO × List Nat)) : List Char :=
  match ex with
  | none => []
  | some (mk, es, ed) => mk :: (es.render ++ ed.map digitChar)

/-- A syntactically valid value token: optional sign, integer digits,
optional dot with fraction digits, optional e/E marker with optionally
signed exponent digits. -/
def renderToken (sg : SignO) (ip : List Nat) (fp : Option (List Nat))
    (ex : Option (Char × SignO × List Nat)) : List Char :=
  sg.render ++ ip.map digitChar ++ dotRender fp ++ expRender ex

/-- The mantissa of a token: its digits with the decimal point ignored. -/
def tokenMantissa (ip : List Nat) (fp : Option (List Nat)) : Nat :=
  digitsVal (ip ++ fp.getD [])

/-- The exponent of a token, 0 when absent. -/
def tokenExponent (ex : Option (Char × SignO × List Nat)) : Int :=
  match ex with
  | none => 0
  | some (_, es, ed) => es.val * (digitsVal ed : Int)

/-- The count of digits after the decimal point. -/
def tokenDecimals (fp : Option (List Nat)) : Nat := (fp.getD []).length

/-- The first character exists and is a sign. -/
def firstIsSign (l : List Char) : Bool :=
  match l with
  | c :: _ => c = '+' || c = '-'
  | [] => false

/-- The first character exists and is a digit. -/
def firstIsDigit (l : List Char) : Bool :=
  match l with
  | c :: _ => isDigitChar c
  | [] => false

/-- Holds when strtol finds no parsable integer at the start of the suffix:
after optional whitespace and an optional sign there is no digit. -/
def noParsableInt (s : List Char) : Bool :=
  let s1 := s.dropWhile isSpaceChar
  let s2 := if firstIsSign s1 then s1.tail else s1
  !firstIsDigit s2

-- # Identifier interning (src/graph.c, addToHash / getVertexIndex)

/-- A transaction line as read by fscanf: two endpoint identifiers and a
value token. -/
structure Tx where
  src : String
  dst : String
  val : List Char
deriving DecidableEq, Repr

/-- addToHash: insert the name with the next index unless already present.
The uthash map with its running index counter is modelled as the list of
keys in insertion order; the index stored with a key is its position, and
the counter value is the list length. -/
def addToHash (m : List String) (name : String) : List String :=
  if name ∈ m then m else m ++ [name]

/-- getVertexIndex: HASH_FIND_STR and return the stored index. -/
def getVertexIndex (m : List String) (name : String) : Nat := m.indexOf name

/-- Interning a whole sequence of identifiers, one addToHash per element. -/
def internAll (names : List String) : List String := names.foldl addToHash []

/-- addAllVertexToHashmap: one pass over the file interning both endpoints
of every transaction; the C function returns the final counter, which is
the length of the returned list here. -/
def addAllVertexToHashmap (txs : List Tx) : List String :=
  txs.foldl (fun m t => addToHash (addToHash m t.src) t.dst) []

-- # Graph (src/graph.c / graph.h)

/-- An adjacency-list node: one directed edge. The destination is stored
after the insertEdge bound check proves it nonnegative. -/
structure Transaction where
  destination : Nat
  transactionValue : Nat
deriving DecidableEq, Repr

/-- The graph: vertex count, edge count, one edge list per vertex. -/
structure GraphDS where
  vertexAmount : Nat
  edgesAmount : Nat
  adjList : List (List Transaction)
deriving DecidableEq, Repr

/-- initGraph: V vertices, no edges, every list NULL. -/
def initGraph (V : Nat) : GraphDS :=
  { vertexAmount := V, edgesAmount := 0, adjList := List.replicate V [] }

/-- insertEdge: reject an endpoint outside [0, vertexAmount) with return
code 0 and an unchanged graph, otherwise prepend the new node to the
source list, bump the edge counter and return 1. -/
def insertEdge (G : GraphDS) (v w : Int) (value : Nat) : GraphDS × Nat :=
  if v < 0 || (G.vertexAmount : Int) ≤ v || w < 0 || (G.vertexAmount : Int) ≤ w then
    (G, 0)
  else
    ({ G with
        adjList := G.adjList.set v.toNat
          ({ destination := w.toNat, transactionValue := value } :: G.adjList.getD v.toNat [])
        edgesAmount := G.edgesAmount + 1 },
     1)

/-- hashToGraph: totalTransactions loop iterations, each reading the next
transaction; a failed fscanf (here: exhausted input) or a failed value
parse warns and continues, otherwise the edge is inserted with the interned
endpoint indices. -/
def hashToGraph (txs : List Tx) (G : GraphDS) (total : Nat) (m : List String) : GraphDS :=
  match total, txs with
  | 0, _ => G
  | i + 1, [] => hashToGraph [] G i m
  | i + 1, t :: rest =>
    match parse_wei_optimized t.val with
    | .error _ => hashToGraph rest G i m
    | .ok v =>
      hashToGraph rest
        (insertEdge G (getVertexIndex m t.src : Int) (getVertexIndex m t.dst : Int) v).1 i m

/-- loadGraph: pass 1 interns every endpoint, then the graph is created
with that many vertices and pass 2 re-reads the input; the C code passes
graph->vertexAmount as the totalTransactions argument of hashToGraph. -/
def loadGraph (txs : List Tx) : GraphDS :=
  let m := addAllVertexToHashmap txs
  let G := initGraph m.length
  hashToGraph txs G G.vertexAmount m

-- # Cycle detection (src/graph.c, recursiveDFS / depthFirstSearch)

/-- One emitted cycle block: the cycle number, the printed vertices
path(start..depth-1), the back-edge target w closing the line, the buffer
values valuesPath(start..depth-2), the closing edge value, and the printed
Max Flow. -/
structure CycleRecord where
  num : Nat
  seg : List Nat
  target : Nat
  segVals : List Nat
  closing : Nat
  maxFlow : Nat
deriving DecidableEq, Repr

/-- The DFS scratch state: the visited and recursion-stack flag arrays, the
path buffer (its length is the depth counter), the valuesPath buffer, the
emitted records, the cycle counter, and, as pure instrumentation for the
temporal claims, the sequence of vertices recursiveDFS is entered on. -/
structure DfsState where
  visited : List Bool
  recStack : List Bool
  path : List Nat
  valuesPath : List Nat
  records : List CycleRecord
  cycleCount : Nat
  trace : List Nat
deriving DecidableEq, Repr

/-- The comparison step if (cmp(acc, x) < 0) acc = x. -/
def listMaxStep (a b : Nat) : Nat := if a < b then b else a

/-- The cycle-found branch of recursiveDFS: locate the first position of w
in the path buffer (depth when absent, as in the C scan), print the
vertices from there through the top plus w, take the running maximum of
valuesPath over start..depth-2 starting from 0 and then of the closing
edge value, and append the record with the incremented cycle counter. -/
def emitCycle (s : DfsState) (w : Nat) (closing : Nat) : DfsState :=
  let depth := s.path.length
  let start := s.path.findIdx (fun x => x == w)
  let seg := s.path.drop (min start (depth - 1))
  let segVals := (s.valuesPath.drop start).take (depth - 1 - start)
  let m1 := segVals.foldl listMaxStep 0
  { s with
      cycleCount := s.cycleCount + 1
      records := s.records ++
        [{ num := s.cycleCount + 1, seg := seg, target := w, segVals := segVals,
           closing := closing, maxFlow := listMaxStep m1 closing }] }

/-- The entry bookkeeping of recursiveDFS: mark visited and on-stack, push
onto the path buffer (and onto the instrumentation trace). -/
def dfsMark (s : DfsState) (v : Nat) : DfsState :=
  { s with
      visited := s.visited.set v true
      recStack := s.recStack.set v true
      path := s.path ++ [v]
      trace := s.trace ++ [v] }

/-- The exit bookkeeping of recursiveDFS: clear the stack flag, pop. -/
def dfsPop (s : DfsState) (v : Nat) : DfsState :=
  { s with recStack := s.recStack.set v false, path := s.path.dropLast }

/-- recursiveDFS. Entry marks the vertex visited and on the stack and
pushes it; each edge first writes its value into valuesPath at depth-1,
then recurses when the destination is unvisited, emits a cycle when it is
on the recursion stack, and does nothing otherwise; exit clears the stack
flag and pops. C recursion is unbounded; here one fuel unit is spent per
nested entry, and fuel vertexAmount suffices because every entered vertex
is freshly marked visited. -/
def dfsVisit (G : GraphDS) : Nat → DfsState → Nat → DfsState
  | 0, s, _ => s
  | fuel + 1, s, v =>
    dfsPop
      ((G.adjList.getD v []).foldl
        (fun t e =>
          let t1 : DfsState :=
            { t with valuesPath := t.valuesPath.set (t.path.length - 1) e.transactionValue }
          if t1.visited.getD e.destination false = false then
            dfsVisit G fuel t1 e.destination
          else if t1.recStack.getD e.destination false = true then
            emitCycle t1 e.destination e.transactionValue
          else t1)
        (dfsMark s v))
      v

/-- The per-edge body of the while loop of recursiveDFS, named so the
theorems can speak about a single edge. -/
def dfsStep (G : GraphDS) (fuel : Nat) (t : DfsState) (e : Transaction) : DfsState :=
  let t1 : DfsState :=
    { t with valuesPath := t.valuesPath.set (t.path.length - 1) e.transactionValue }
  if t1.visited.getD e.destination false = false then
    dfsVisit G fuel t1 e.destination
  else if t1.recStack.getD e.destination false = true then
    emitCycle t1 e.destination e.transactionValue
  else t1

/-- The freshly allocated DFS state: calloc visited and recStack, depth 0,
mpz_init zeroes in valuesPath. -/
def initState (n : Nat) : DfsState :=
  { visited := List.replicate n false
    recStack := List.replicate n false
    path := []
    valuesPath := List.replicate n 0
    records := []
    cycleCount := 0
    trace := [] }

/-- depthFirstSearch: the outer loop over all vertices, entering only the
still-unvisited ones. -/
def depthFirstSearch (G : GraphDS) : DfsState :=
  (List.range G.vertexAmount).foldl
    (fun s v => if s.visited.getD v false = true then s else dfsVisit G G.vertexAmount s v)
    (initState G.vertexAmount)

/-- Every edge destination of the graph is a valid vertex index: what
insertEdge guarantees for every loaded graph, and what the C traversal
assumes when it indexes the flag arrays with a destination. -/
def edgesInRange (G : GraphDS) : Prop :=
  ∀ l ∈ G.adjList, ∀ e ∈ l, e.destination < G.vertexAmount

-- # DFS invariants

/-- The visited flag of a vertex, as the C array read visited(u). -/
def Vis (s : DfsState) (u : Nat) : Bool := s.visited.getD u false

/-- The recursion-stack flag of a vertex. -/
def Stk (s : DfsState) (u : Nat) : Bool := s.recStack.getD u false

/-- The invariant recursiveDFS maintains on its scratch state: the flag
arrays keep their allocated length, the path buffer holds distinct valid
visited vertices, the stack flags are exactly the path membership, and the
entry trace is distinct and visited. -/
structure DfsInv (n : Nat) (s : DfsState) : Prop where
  vlen : s.visited.length = n
  rlen : s.recStack.length = n
  pnodup : s.path.Nodup
  plt : ∀ u ∈ s.path, u < n
  pvis : ∀ u ∈ s.path, Vis s u = true
  stk : ∀ u, Stk s u = true ↔ u ∈ s.path
  tnodup : s.trace.Nodup
  tvis : ∀ u ∈ s.trace, Vis s u = true

/-- What one recursiveDFS call (or a run of its edge loop) does to the
state, seen from outside: the invariant still holds, the path is restored,
visited flags only grow, and emitted records are kept. -/
structure DfsPres (n : Nat) (s s2 : DfsState) : Prop where
  inv : DfsInv n s2
  path : s2.path = s.path
  vis : ∀ u, Vis s u = true → Vis s2 u = true
  recs : ∀ r ∈ s.records, r ∈ s2.records

/-- The number of still-unvisited slots of the visited array. -/
def freeCount (s : DfsState) : Nat := s.visited.countP (fun b => b = false)

/-- The path and valuesPath buffers describe a real walk of the graph:
consecutive path entries are joined by an adjacency-list edge whose value
is the paired valuesPath entry. -/
def ChainOk (G : GraphDS) (path vals : List Nat) : Prop :=
  ∀ i, i + 1 < path.length →
    ∃ e ∈ G.adjList.getD (path.getD i 0) [],
      e.destination = path.getD (i + 1) 0 ∧ e.transactionValue = vals.getD i 0

/-- An emitted record names a real closed walk of the graph: the printed
vertex segment is nonempty and one longer than the value list, consecutive
segment vertices are joined by graph edges carrying exactly the recorded
values, and a closing edge from the last segment vertex back to the target
carries the recorded closing value. -/
def RecOk (G : GraphDS) (r : CycleRecord) : Prop :=
  r.seg ≠ [] ∧
  r.segVals.length + 1 = r.seg.length ∧
  (∀ i, i + 1 < r.seg.length →
    ∃ e ∈ G.adjList.getD (r.seg.getD i 0) [],
      e.destination = r.seg.getD (i + 1) 0 ∧ e.transactionValue = r.segVals.getD i 0) ∧
  (∃ e ∈ G.adjList.getD (r.seg.getD (r.seg.length - 1) 0) [],
    e.destination = r.target ∧ e.transactionValue = r.closing)

/-- The valuesPath write done at the head of the edge loop body: store the
current edge value at the top-of-path slot. -/
def setTop (t : DfsState) (c : Nat) : DfsState :=
  { t with valuesPath := t.valuesPath.set (t.path.length - 1) c }

-- # Concrete inputs used by the claims

/-- A three-line input file over the two wallets A and B: every line is
well formed and its value parses. -/
def file1 : List Tx := [⟨"A", "B", ['1', '0']⟩, ⟨"B", "A", ['2', '0']⟩, ⟨"A", "B", ['3', '0']⟩]

/-- The 3-cycle 0 to 1 (value 5), 1 to 2 (value 9), 2 to 0 (value 2). -/
def threeCycleGraph : GraphDS :=
  (insertEdge (insertEdge (insertEdge (initGraph 3) 0 1 5).1 1 2 9).1 2 0 2).1

/-- One vertex with a self-loop of value 7. -/
def selfLoopGraph : GraphDS := (insertEdge (initGraph 1) 0 0 7).1


/-- One recursion level of recursiveDFS: mark and push, run the edge
loop, clear the stack flag and pop. -/
theorem dfsVisit_succ (G : GraphDS) (fuel : Nat) (s : DfsState) (v : Nat) :
    dfsVisit G (fuel + 1) s v =
      dfsPop ((G.adjList.getD v []).foldl (dfsStep G fuel) (dfsMark s v)) v := rfl

-- # Generic list helpers

theorem getD_set_self {α : Type} (l : List α) (i : Nat) (a d : α) (h : i < l.length) :
    (l.set i a).getD i d = a := by
  simp [List.getD_eq_getElem?_getD, List.getElem?_set_self, h]

theorem getD_set_ne {α : Type} (l : List α) {i j : Nat} (a d : α) (h : i ≠ j) :
    (l.set i a).getD j d = l.getD j d := by
  simp [List.getD_eq_getElem?_getD, List.getElem?_set_ne h]

theorem getD_replicate_false (n u : Nat) : (List.replicate n false).getD u false = false := by
  simp only [List.getD_eq_getElem?_getD, List.getElem?_replicate]
  split <;> rfl

theorem foldl_mul_add (ds : List Nat) (a : Nat) :
    ds.foldl (fun x d => 10 * x + d) a = a * 10 ^ ds.length + digitsVal ds := by
  induction ds generalizing a with
  | nil => simp [digitsVal]
  | cons d ds ih =>
    rw [List.foldl_cons, ih, List.length_cons]
    have h2 : digitsVal (d :: ds) = d * 10 ^ ds.length + digitsVal ds := by
      have h0 : digitsVal (d :: ds) = List.foldl (fun x d => 10 * x + d) (10 * 0 + d) ds := rfl
      rw [h0, ih]
      ring
    rw [h2]
    ring

theorem digitsVal_cons (d : Nat) (ds : List Nat) :
    digitsVal (d :: ds) = d * 10 ^ ds.length + digitsVal ds := by
  have h0 : digitsVal (d :: ds) = List.foldl (fun x d => 10 * x + d) (10 * 0 + d) ds := rfl
  rw [h0, foldl_mul_add]
  ring

theorem digitsVal_append (l1 l2 : List Nat) :
    digitsVal (l1 ++ l2) = digitsVal l1 * 10 ^ l2.length + digitsVal l2 := by
  have h0 : digitsVal (l1 ++ l2) = List.foldl (fun x d => 10 * x + d) (digitsVal l1) l2 := by
    simp only [digitsVal, List.foldl_append]
  rw [h0, foldl_mul_add]

-- # Parser lemmas: character classes of the rendered digits

theorem digitChar_isDigit {d : Nat} (h : d < 10) : isDigitChar (digitChar d) = true := by
  interval_cases d <;> decide

theorem digitChar_val {d : Nat} (h : d < 10) : digitVal (digitChar d) = d := by
  interval_cases d <;> decide

theorem digitChar_not_exp {d : Nat} (h : d < 10) : isExpChar (digitChar d) = false := by
  interval_cases d <;> decide

theorem digitChar_not_space {d : Nat} (h : d < 10) : isSpaceChar (digitChar d) = false := by
  interval_cases d <;> decide

theorem digitChar_ne_plus {d : Nat} (h : d < 10) : digitChar d ≠ '+' := by
  interval_cases d <;> decide

theorem digitChar_ne_minus {d : Nat} (h : d < 10) : digitChar d ≠ '-' := by
  interval_cases d <;> decide

-- # Parser lemmas: splitting at the exponent marker

theorem splitAtExp_of_not_exp (l : List Char) (h : ∀ c ∈ l, isExpChar c = false) :
    splitAtExp l = (l, none) := by
  induction l with
  | nil => rfl
  | cons c rest ih =>
    have hc : isExpChar c = false := h c (by simp)
    simp [splitAtExp, hc, ih fun x hx => h x (by simp [hx])]

theorem splitAtExp_append (l : List Char) (m : Char) (r : List Char)
    (h : ∀ c ∈ l, isExpChar c = false) (hm : isExpChar m = true) :
    splitAtExp (l ++ m :: r) = (l, some r) := by
  induction l with
  | nil => simp [splitAtExp, hm]
  | cons c rest ih =>
    have hc : isExpChar c = false := h c (by simp)
    simp [splitAtExp, hc, ih fun x hx => h x (by simp [hx])]

theorem splitAtExp_fst_head (l : List Char) :
    (splitAtExp l).1 = [] ∨ (splitAtExp l).1.head? = l.head? := by
  cases l with
  | nil => left; rfl
  | cons c rest =>
    by_cases hc : isExpChar c = true
    · left; simp [splitAtExp, hc]
    · right; simp [splitAtExp, hc]

-- # Parser lemmas: the mantissa scan over rendered digits

theorem scanMantissa_digits (ds : List Nat) (hds : ∀ d ∈ ds, d < 10) (rest : List Char)
    (a : Bool) (m dp : Nat) (dot hd : Bool) :
    scanMantissa (ds.map digitChar ++ rest) a ⟨m, dp, dot, hd⟩ =
      scanMantissa rest (a && ds.isEmpty)
        ⟨m * 10 ^ ds.length + digitsVal ds,
         if dot then dp + ds.length else dp, dot, hd || !ds.isEmpty⟩ := by
  induction ds generalizing a m dp hd with
  | nil => simp [digitsVal]
  | cons d ds ih =>
    have hd10 : d < 10 := hds d (by simp)
    have hstep : scanMantissa ((d :: ds).map digitChar ++ rest) a ⟨m, dp, dot, hd⟩ =
        scanMantissa (ds.map digitChar ++ rest) false
          ⟨10 * m + d, if dot then dp + 1 else dp, dot, true⟩ := by
      simp [scanMantissa, digitChar_isDigit hd10, digitChar_val hd10]
    rw [hstep, ih (fun x hx => hds x (by simp [hx]))]
    congr 1
    · simp
    · cases dot with
      | false =>
        simp [MScan.mk.injEq, digitsVal_cons, pow_succ, List.isEmpty_cons]
        ring
      | true =>
        simp [MScan.mk.injEq, digitsVal_cons, pow_succ, List.isEmpty_cons]
        exact ⟨by ring, by omega⟩

theorem scanMantissa_dot (rest : List Char) (a : Bool) (m dp : Nat) (hd : Bool) :
    scanMantissa ('.' :: rest) a ⟨m, dp, false, hd⟩ =
      scanMantissa rest false ⟨m, dp, true, hd⟩ := rfl

theorem scanMantissa_plus (rest : List Char) (st : MScan) :
    scanMantissa ('+' :: rest) true st = scanMantissa rest false st := rfl

theorem scanMantissa_minus (rest : List Char) (st : MScan) :
    scanMantissa ('-' :: rest) true st = scanMantissa rest false st := rfl

-- # Parser lemmas: strtol over a rendered exponent

theorem strtolDigits_map (ds : List Nat) (h10 : ∀ d ∈ ds, d < 10) (acc : Nat) :
    strtolDigits (ds.map digitChar) acc = acc * 10 ^ ds.length + digitsVal ds := by
  induction ds generalizing acc with
  | nil => simp [strtolDigits, digitsVal]
  | cons d ds ih =>
    have hd10 : d < 10 := h10 d (by simp)
    have hstep : strtolDigits ((d :: ds).map digitChar) acc =
        strtolDigits (ds.map digitChar) (10 * acc + d) := by
      simp [strtolDigits, digitChar_isDigit hd10, digitChar_val hd10]
    rw [hstep, ih (fun x hx => h10 x (by simp [hx])), digitsVal_cons, List.length_cons, pow_succ]
    ring

theorem strtolVal_render (es : SignO) (ed : List Nat) (hne : ed ≠ []) (h10 : ∀ d ∈ ed, d < 10) :
    strtolVal (es.render ++ ed.map digitChar) = es.val * (digitsVal ed : Int) := by
  obtain ⟨d, ds, rfl⟩ := List.exists_cons_of_ne_nil hne
  have hd10 : d < 10 := h10 d (by simp)
  have hdig : strtolDigits (digitChar d :: List.map digitChar ds) 0 = digitsVal (d :: ds) := by
    have h := strtolDigits_map (d :: ds) h10 0
    simpa using h
  cases es with
  | nosign =>
    have hdrop : List.dropWhile isSpaceChar (SignO.nosign.render ++ (d :: ds).map digitChar) =
        digitChar d :: List.map digitChar ds := by
      simp [SignO.render, List.dropWhile_cons, digitChar_not_space hd10]
    unfold strtolVal
    rw [hdrop]
    split
    · rename_i heq
      exact absurd (List.head_eq_of_cons_eq heq) (digitChar_ne_plus hd10)
    · rename_i heq
      exact absurd (List.head_eq_of_cons_eq heq) (digitChar_ne_minus hd10)
    · rw [hdig]
      simp [SignO.val]
  | plus =>
    have hsp : isSpaceChar '+' = false := by decide
    have hdrop : List.dropWhile isSpaceChar (SignO.plus.render ++ (d :: ds).map digitChar) =
        '+' :: (digitChar d :: List.map digitChar ds) := by
      simp [SignO.render, List.dropWhile_cons, hsp]
    unfold strtolVal
    rw [hdrop]
    split
    · rename_i heq
      injection heq with h1 h2
      subst h2
      rw [hdig]
      simp [SignO.val]
    · rename_i heq
      injection heq with h1 h2
      exact absurd h1 (by decide)
    · rename_i h1 h2
      exact absurd rfl (h1 _)
  | minus =>
    have hsp : isSpaceChar '-' = false := by decide
    have hdrop : List.dropWhile isSpaceChar (SignO.minus.render ++ (d :: ds).map digitChar) =
        '-' :: (digitChar d :: List.map digitChar ds) := by
      simp [SignO.render, List.dropWhile_cons, hsp]
    unfold strtolVal
    rw [hdrop]
    split
    · rename_i heq
      injection heq with h1 h2
      exact absurd h1 (by decide)
    · rename_i heq
      injection heq with h1 h2
      subst h2
      rw [hdig]
      simp [SignO.val]
    · rename_i h1 h2
      exact absurd rfl (h2 _)

theorem clampLong_eq_self (x : Int) (hlo : LONG_MIN ≤ x) (hhi : x ≤ LONG_MAX) :
    clampLong x = x := by
  unfold clampLong
  rw [min_eq_left hhi]
  exact max_eq_right hlo

theorem strtol10_render (es : SignO) (ed : List Nat) (hne : ed ≠ []) (h10 : ∀ d ∈ ed, d < 10) :
    strtol10 (es.render ++ ed.map digitChar) = clampLong (es.val * (digitsVal ed : Int)) := by
  unfold strtol10
  rw [strtolVal_render es ed hne h10]

-- # Parser lemmas: parsing a rendered valid token

theorem scanMantissa_token (ip : List Nat) (fp : Option (List Nat)) (a : Bool)
    (hip : ip ≠ []) (h1 : ∀ d ∈ ip, d < 10) (h2 : ∀ f ∈ fp, ∀ d ∈ f, d < 10) :
    scanMantissa (ip.map digitChar ++ dotRender fp) a ⟨0, 0, false, false⟩ =
      some ⟨tokenMantissa ip fp, tokenDecimals fp, fp.isSome, true⟩ := by
  obtain ⟨d0, ip', rfl⟩ := List.exists_cons_of_ne_nil hip
  rw [scanMantissa_digits _ h1]
  cases fp with
  | none =>
    simp [scanMantissa, dotRender, tokenMantissa, tokenDecimals, List.isEmpty_cons]
  | some f =>
    simp only [dotRender, List.isEmpty_cons, Bool.and_false, Bool.not_false, Bool.or_true,
      ite_false, Bool.false_eq_true]
    rw [scanMantissa_dot]
    have hmap : (f.map digitChar) = f.map digitChar ++ [] := by simp
    rw [hmap, scanMantissa_digits _ (h2 f rfl)]
    simp [scanMantissa, tokenMantissa, tokenDecimals]
    rw [show d0 :: (ip' ++ f) = (d0 :: ip') ++ f from rfl, digitsVal_append]

theorem dotRender_not_exp (fp : Option (List Nat)) (h2 : ∀ f ∈ fp, ∀ d ∈ f, d < 10) :
    ∀ c ∈ dotRender fp, isExpChar c = false := by
  intro c hc
  cases fp with
  | none => simp [dotRender] at hc
  | some f =>
    simp only [dotRender, List.mem_cons] at hc
    rcases hc with rfl | hcf
    · decide
    · obtain ⟨d, hd, rfl⟩ := List.mem_map.mp hcf
      exact digitChar_not_exp (h2 f rfl d hd)

theorem parse_renderToken (sg : SignO) (ip : List Nat) (fp : Option (List Nat))
    (ex : Option (Char × SignO × List Nat))
    (hip : ip ≠ []) (h1 : ∀ d ∈ ip, d < 10)
    (h2 : ∀ f ∈ fp, ∀ d ∈ f, d < 10)
    (h3 : ∀ p ∈ ex, isExpChar p.1 = true)
    (h4 : ∀ p ∈ ex, p.2.2 ≠ [] ∧ ∀ d ∈ p.2.2, d < 10) :
    parse_wei_optimized (renderToken sg ip fp ex) =
      (if clampLong (tokenExponent ex) - (tokenDecimals fp : Int) ≤ LONG_MIN then
        Except.error (-3)
      else if 0 < clampLong (tokenExponent ex) - (tokenDecimals fp : Int) then
        Except.ok (tokenMantissa ip fp *
          10 ^ (clampLong (tokenExponent ex) - (tokenDecimals fp : Int)).toNat)
      else if clampLong (tokenExponent ex) - (tokenDecimals fp : Int) < 0 then
        if tokenMantissa ip fp %
            10 ^ (-(clampLong (tokenExponent ex) - (tokenDecimals fp : Int))).toNat ≠ 0 then
          Except.error (-2)
        else Except.ok (tokenMantissa ip fp /
          10 ^ (-(clampLong (tokenExponent ex) - (tokenDecimals fp : Int))).toNat)
      else Except.ok (tokenMantissa ip fp)) := by
  have hnoexp : ∀ c ∈ sg.render ++ ip.map digitChar ++ dotRender fp, isExpChar c = false := by
    intro c hc
    rcases List.mem_append.mp hc with hc1 | hcd
    · rcases List.mem_append.mp hc1 with hcs | hci
      · cases sg <;> simp [SignO.render] at hcs <;> (subst hcs; decide)
      · obtain ⟨d, hd, rfl⟩ := List.mem_map.mp hci
        exact digitChar_not_exp (h1 d hd)
    · exact dotRender_not_exp fp h2 c hcd
  have hscan : scanMantissa (sg.render ++ ip.map digitChar ++ dotRender fp) true
      ⟨0, 0, false, false⟩ =
      some ⟨tokenMantissa ip fp, tokenDecimals fp, fp.isSome, true⟩ := by
    cases sg with
    | nosign =>
      simp only [SignO.render, List.nil_append]
      exact scanMantissa_token ip fp true hip h1 h2
    | plus =>
      rw [show SignO.plus.render ++ ip.map digitChar ++ dotRender fp =
        '+' :: (ip.map digitChar ++ dotRender fp) from by simp [SignO.render]]
      rw [scanMantissa_plus]
      exact scanMantissa_token ip fp false hip h1 h2
    | minus =>
      rw [show SignO.minus.render ++ ip.map digitChar ++ dotRender fp =
        '-' :: (ip.map digitChar ++ dotRender fp) from by simp [SignO.render]]
      rw [scanMantissa_minus]
      exact scanMantissa_token ip fp false hip h1 h2
  cases ex with
  | none =>
    have hsplit : splitAtExp (renderToken sg ip fp none) =
        (sg.render ++ ip.map digitChar ++ dotRender fp, none) := by
      rw [show renderToken sg ip fp none = sg.render ++ ip.map digitChar ++ dotRender fp from by
        simp [renderToken, expRender]]
      exact splitAtExp_of_not_exp _ hnoexp
    have hc0 : clampLong 0 = 0 := by decide
    simp only [parse_wei_optimized, hsplit, hscan, tokenExponent, hc0]
    norm_num
  | some p =>
    obtain ⟨mk, es, ed⟩ := p
    have hmk : isExpChar mk = true := h3 _ rfl
    have hed : ed ≠ [] := (h4 _ rfl).1
    have hed10 : ∀ d ∈ ed, d < 10 := (h4 _ rfl).2
    have hsplit : splitAtExp (renderToken sg ip fp (some (mk, es, ed))) =
        (sg.render ++ ip.map digitChar ++ dotRender fp, some (es.render ++ ed.map digitChar)) := by
      rw [show renderToken sg ip fp (some (mk, es, ed)) =
        (sg.render ++ ip.map digitChar ++ dotRender fp) ++ mk :: (es.render ++ ed.map digitChar) from by
        simp [renderToken, expRender]]
      exact splitAtExp_append _ mk _ hnoexp hmk
    have hexp : strtol10 (es.render ++ ed.map digitChar) =
        clampLong (tokenExponent (some (mk, es, ed))) :=
      strtol10_render es ed hed hed10
    simp only [parse_wei_optimized, hsplit, hscan, hexp]
    norm_num

-- C3 scan lemmas

theorem scanMantissa_none_of_bad (l : List Char) (a : Bool) (st : MScan)
    (h : ∃ c ∈ l, isDigitChar c = false ∧ c ≠ '.' ∧ c ≠ '+' ∧ c ≠ '-') :
    scanMantissa l a st = none := by
  induction l generalizing a st with
  | nil => simp at h
  | cons c rest ih =>
    obtain ⟨c0, hc0mem, hbad⟩ := h
    simp only [scanMantissa]
    rcases List.mem_cons.mp hc0mem with rfl | hmem
    · have e1 : isDigitChar c0 = false := hbad.1
      have e2 : (decide (c0 = '.') && !st.dotFound) = false := by simp [hbad.2.1]
      have e3 : ((decide (c0 = '+') || decide (c0 = '-')) && a) = false := by
        simp [hbad.2.2.1, hbad.2.2.2]
      simp [e1, e2, e3]
    · cases hdig : isDigitChar c with
      | true =>
        simp only [hdig, if_true]
        exact ih _ _ ⟨c0, hmem, hbad⟩
      | false =>
        cases hdot : (decide (c = '.') && !st.dotFound) with
        | true =>
          simp only [hdig, hdot, Bool.false_eq_true, if_false, if_true]
          exact ih _ _ ⟨c0, hmem, hbad⟩
        | false =>
          cases hsign : ((decide (c = '+') || decide (c = '-')) && a) with
          | true =>
            simp only [hdig, hdot, hsign, Bool.false_eq_true, if_false, if_true]
            exact ih _ _ ⟨c0, hmem, hbad⟩
          | false =>
            simp [hdig, hdot, hsign]

theorem scanMantissa_hasDigits (l : List Char) (a : Bool) (st st' : MScan)
    (hscan : scanMantissa l a st = some st') (hd : st'.hasDigits = true) :
    st.hasDigits = true ∨ ∃ c ∈ l, isDigitChar c = true := by
  induction l generalizing a st with
  | nil =>
    simp only [scanMantissa, Option.some.injEq] at hscan
    subst hscan
    exact Or.inl hd
  | cons c rest ih =>
    simp only [scanMantissa] at hscan
    cases hdig : isDigitChar c with
    | true => exact Or.inr ⟨c, by simp, hdig⟩
    | false =>
      rw [hdig] at hscan
      cases hdot : (decide (c = '.') && !st.dotFound) with
      | true =>
        rw [hdot] at hscan
        simp only [Bool.false_eq_true, if_false, if_true] at hscan
        rcases ih _ _ hscan with h | ⟨c2, hc2, hdig2⟩
        · exact Or.inl h
        · exact Or.inr ⟨c2, by simp [hc2], hdig2⟩
      | false =>
        rw [hdot] at hscan
        cases hsign : ((decide (c = '+') || decide (c = '-')) && a) with
        | true =>
          rw [hsign] at hscan
          simp only [Bool.false_eq_true, if_false, if_true] at hscan
          rcases ih _ _ hscan with h | ⟨c2, hc2, hdig2⟩
          · exact Or.inl h
          · exact Or.inr ⟨c2, by simp [hc2], hdig2⟩
        | false =>
          rw [hsign] at hscan
          simp at hscan

theorem parse_invalid_char (s : List Char)
    (h : ∃ c ∈ (splitAtExp s).1, isDigitChar c = false ∧ c ≠ '.' ∧ c ≠ '+' ∧ c ≠ '-') :
    parse_wei_optimized s = .error (-1) := by
  have hn := scanMantissa_none_of_bad (splitAtExp s).1 true ⟨0, 0, false, false⟩ h
  simp [parse_wei_optimized, hn]

theorem parse_no_digits (s : List Char)
    (h : ∀ c ∈ (splitAtExp s).1, isDigitChar c = false) :
    parse_wei_optimized s = .error (-1) := by
  rcases hscan : scanMantissa (splitAtExp s).1 true ⟨0, 0, false, false⟩ with _ | st
  · simp [parse_wei_optimized, hscan]
  · have hdig : st.hasDigits = false := by
      rcases hst : st.hasDigits with _ | _
      · rfl
      · rcases scanMantissa_hasDigits _ _ _ _ hscan hst with h0 | ⟨c, hc, hd⟩
        · simp at h0
        · exact absurd hd (by simp [h c hc])
    simp [parse_wei_optimized, hscan, hdig]

-- C9 lemmas

theorem scanMantissa_start_irrel (l : List Char) (st : MScan)
    (h : ∀ c, l.head? = some c → c ≠ '+' ∧ c ≠ '-') :
    scanMantissa l false st = scanMantissa l true st := by
  cases l with
  | nil => rfl
  | cons c rest =>
    obtain ⟨h1, h2⟩ := h c rfl
    have e : (decide (c = '+') || decide (c = '-')) = false := by simp [h1, h2]
    simp only [scanMantissa, e, Bool.false_and]

theorem parse_sign_ignored (T : List Char)
    (h : ∀ c, T.head? = some c → c ≠ '+' ∧ c ≠ '-') :
    parse_wei_optimized ('-' :: T) = parse_wei_optimized T ∧
    parse_wei_optimized ('+' :: T) = parse_wei_optimized T := by
  have hscan : ∀ st, scanMantissa (splitAtExp T).1 false st =
      scanMantissa (splitAtExp T).1 true st := by
    intro st
    apply scanMantissa_start_irrel
    intro c hc
    rcases splitAtExp_fst_head T with he | he
    · rw [he] at hc
      exact absurd hc (by simp)
    · exact h c (he ▸ hc)
  constructor
  · have e1 : splitAtExp ('-' :: T) = ('-' :: (splitAtExp T).1, (splitAtExp T).2) := by
      have he : isExpChar '-' = false := by decide
      simp [splitAtExp, he]
    simp only [parse_wei_optimized, e1]
    rw [scanMantissa_minus, hscan]
  · have e1 : splitAtExp ('+' :: T) = ('+' :: (splitAtExp T).1, (splitAtExp T).2) := by
      have he : isExpChar '+' = false := by decide
      simp [splitAtExp, he]
    simp only [parse_wei_optimized, e1]
    rw [scanMantissa_plus, hscan]

-- # Parser lemmas: strtol on an unparsable suffix (C10)

theorem strtolVal_zero_of_noParsable (s : List Char) (h : noParsableInt s = true) :
    strtolVal s = 0 := by
  unfold noParsableInt at h
  unfold strtolVal
  cases hdrop : s.dropWhile isSpaceChar with
  | nil =>
    simp [strtolDigits]
  | cons c rest =>
    rw [hdrop] at h
    by_cases hc : c = '+'
    · subst hc
      have hsgn : firstIsSign ('+' :: rest) = true := by simp [firstIsSign]
      simp only [hsgn, if_true] at h
      cases rest with
      | nil =>
        show ((strtolDigits [] 0 : Nat) : Int) = 0
        simp [strtolDigits]
      | cons c2 r2 =>
        have hd2 : isDigitChar c2 = false := by simpa [firstIsDigit] using h
        show ((strtolDigits (c2 :: r2) 0 : Nat) : Int) = 0
        simp [strtolDigits, hd2]
    · by_cases hc2 : c = '-'
      · subst hc2
        have hsgn : firstIsSign ('-' :: rest) = true := by simp [firstIsSign]
        simp only [hsgn, if_true] at h
        cases rest with
        | nil =>
          show -((strtolDigits [] 0 : Nat) : Int) = 0
          simp [strtolDigits]
        | cons c2 r2 =>
          have hd2 : isDigitChar c2 = false := by simpa [firstIsDigit] using h
          show -((strtolDigits (c2 :: r2) 0 : Nat) : Int) = 0
          simp [strtolDigits, hd2]
      · have hsgn : firstIsSign (c :: rest) = false := by simp [firstIsSign, hc, hc2]
        simp only [hsgn, Bool.false_eq_true, if_false] at h
        have hcd : isDigitChar c = false := by simpa [firstIsDigit] using h
        split
        · rename_i heq
          exact absurd (List.head_eq_of_cons_eq heq) hc
        · rename_i heq
          exact absurd (List.head_eq_of_cons_eq heq) hc2
        · simp [strtolDigits, hcd]

theorem strtol10_zero_of_noParsable (s : List Char) (h : noParsableInt s = true) :
    strtol10 s = 0 := by
  unfold strtol10
  rw [strtolVal_zero_of_noParsable s h]
  decide

/-- The characters after the exponent marker contribute nothing when strtol
finds no integer there: parsing is exactly parsing the mantissa region. -/
theorem parse_exp_suffix_ignored (mreg suffix : List Char) (mk : Char)
    (hmk : isExpChar mk = true) (hm : ∀ c ∈ mreg, isExpChar c = false)
    (hs : noParsableInt suffix = true) :
    parse_wei_optimized (mreg ++ mk :: suffix) = parse_wei_optimized mreg := by
  have h1 : splitAtExp (mreg ++ mk :: suffix) = (mreg, some suffix) :=
    splitAtExp_append mreg mk suffix hm hmk
  have h2 : splitAtExp mreg = (mreg, none) := splitAtExp_of_not_exp mreg hm
  have h3 : strtol10 suffix = 0 := strtol10_zero_of_noParsable suffix hs
  simp only [parse_wei_optimized, h1, h2, h3]

theorem DfsPres.ofInv {n : Nat} {s : DfsState} (h : DfsInv n s) : DfsPres n s s :=
  ⟨h, rfl, fun _ hu => hu, fun _ hr => hr⟩

theorem DfsPres.comp {n : Nat} {s s2 s3 : DfsState}
    (h1 : DfsPres n s s2) (h2 : DfsPres n s2 s3) : DfsPres n s s3 :=
  ⟨h2.inv, h2.path.trans h1.path, fun u hu => h2.vis u (h1.vis u hu),
   fun r hr => h2.recs r (h1.recs r hr)⟩

theorem adj_dest_lt (G : GraphDS) (hG : edgesInRange G) (v : Nat) :
    ∀ e ∈ G.adjList.getD v [], e.destination < G.vertexAmount := by
  intro e he
  rcases Nat.lt_or_ge v G.adjList.length with h | h
  · rw [List.getD_eq_getElem _ _ h] at he
    exact hG _ (List.getElem_mem h) e he
  · rw [List.getD_eq_default _ _ h] at he
    simp at he

theorem Vis_mark_mono (s : DfsState) (v u : Nat) (h : Vis s u = true) :
    Vis (dfsMark s v) u = true := by
  show (s.visited.set v true).getD u false = true
  by_cases huv : v = u
  · subst huv
    rcases Nat.lt_or_ge v s.visited.length with hlt | hge
    · rw [getD_set_self _ _ _ _ hlt]
    · rw [List.set_eq_of_length_le hge]
      exact h
  · rw [getD_set_ne _ _ _ huv]
    exact h

theorem Vis_mark_self (s : DfsState) (v : Nat) (h : v < s.visited.length) :
    Vis (dfsMark s v) v = true := by
  show (s.visited.set v true).getD v false = true
  rw [getD_set_self _ _ _ _ h]

theorem DfsInv_mark (n : Nat) (s : DfsState) (v : Nat)
    (hInv : DfsInv n s) (hv : v < n) (hvis : Vis s v = false) :
    DfsInv n (dfsMark s v) := by
  have hvlen : v < s.visited.length := by rw [hInv.vlen]; exact hv
  have hrlen : v < s.recStack.length := by rw [hInv.rlen]; exact hv
  have hnp : v ∉ s.path := fun hmem => by simp [hInv.pvis v hmem] at hvis
  have hnt : v ∉ s.trace := fun hmem => by simp [hInv.tvis v hmem] at hvis
  constructor
  · simpa [dfsMark] using hInv.vlen
  · simpa [dfsMark] using hInv.rlen
  · show (s.path ++ [v]).Nodup
    simp [List.nodup_append, hInv.pnodup, hnp]
  · intro u hu
    rcases List.mem_append.mp hu with hu | hu
    · exact hInv.plt u hu
    · simp at hu
      subst hu
      exact hv
  · intro u hu
    rcases List.mem_append.mp hu with hu | hu
    · exact Vis_mark_mono s v u (hInv.pvis u hu)
    · simp at hu
      subst hu
      exact Vis_mark_self s u hvlen
  · intro u
    show (s.recStack.set v true).getD u false = true ↔ u ∈ s.path ++ [v]
    by_cases huv : v = u
    · subst huv
      rw [getD_set_self _ _ _ _ hrlen]
      simp
    · rw [getD_set_ne _ _ _ huv]
      rw [show ((s.recStack.getD u false = true) ↔ u ∈ s.path) from hInv.stk u]
      have huv2 : u ≠ v := fun h => huv h.symm
      simp [List.mem_append, huv2]
  · show (s.trace ++ [v]).Nodup
    simp [List.nodup_append, hInv.tnodup, hnt]
  · intro u hu
    rcases List.mem_append.mp hu with hu | hu
    · exact Vis_mark_mono s v u (hInv.tvis u hu)
    · simp at hu
      subst hu
      exact Vis_mark_self s u hvlen

theorem DfsInv_setVals (n : Nat) (s : DfsState) (i val : Nat) (hInv : DfsInv n s) :
    DfsInv n { s with valuesPath := s.valuesPath.set i val } :=
  { vlen := hInv.vlen, rlen := hInv.rlen, pnodup := hInv.pnodup, plt := hInv.plt,
    pvis := hInv.pvis, stk := hInv.stk, tnodup := hInv.tnodup, tvis := hInv.tvis }

theorem DfsPres_setVals (n : Nat) (s : DfsState) (i val : Nat) (hInv : DfsInv n s) :
    DfsPres n s { s with valuesPath := s.valuesPath.set i val } :=
  ⟨DfsInv_setVals n s i val hInv, rfl, fun _ hu => hu, fun _ hr => hr⟩

theorem DfsInv_emit (n : Nat) (s : DfsState) (w c : Nat) (hInv : DfsInv n s) :
    DfsInv n (emitCycle s w c) :=
  { vlen := hInv.vlen, rlen := hInv.rlen, pnodup := hInv.pnodup, plt := hInv.plt,
    pvis := hInv.pvis, stk := hInv.stk, tnodup := hInv.tnodup, tvis := hInv.tvis }

theorem DfsPres_emit (n : Nat) (s : DfsState) (w c : Nat) (hInv : DfsInv n s) :
    DfsPres n s (emitCycle s w c) :=
  ⟨DfsInv_emit n s w c hInv, rfl, fun _ hu => hu,
   fun r hr => by
    show r ∈ s.records ++ [_]
    exact List.mem_append.mpr (Or.inl hr)⟩

theorem DfsInv_pop (n : Nat) (s2 : DfsState) (v : Nat) (p : List Nat)
    (hInv2 : DfsInv n s2) (hp : s2.path = p ++ [v]) (hvp : v ∉ p) (hv : v < n) :
    DfsInv n (dfsPop s2 v) ∧ (dfsPop s2 v).path = p := by
  have hrlen : v < s2.recStack.length := by rw [hInv2.rlen]; exact hv
  have hpath : (dfsPop s2 v).path = p := by
    show s2.path.dropLast = p
    rw [hp]
    exact List.dropLast_concat
  refine ⟨?_, hpath⟩
  constructor
  · simpa [dfsPop] using hInv2.vlen
  · simpa [dfsPop] using hInv2.rlen
  · rw [hpath]
    have := hInv2.pnodup
    rw [hp] at this
    exact this.of_append_left
  · intro u hu
    rw [hpath] at hu
    exact hInv2.plt u (by rw [hp]; exact List.mem_append.mpr (Or.inl hu))
  · intro u hu
    rw [hpath] at hu
    exact hInv2.pvis u (by rw [hp]; exact List.mem_append.mpr (Or.inl hu))
  · intro u
    rw [hpath]
    show (s2.recStack.set v false).getD u false = true ↔ u ∈ p
    by_cases huv : v = u
    · subst huv
      rw [getD_set_self _ _ _ _ hrlen]
      simp [hvp]
    · rw [getD_set_ne _ _ _ huv]
      rw [show ((s2.recStack.getD u false = true) ↔ u ∈ s2.path) from hInv2.stk u]
      have huv2 : u ≠ v := fun h => huv h.symm
      rw [hp]
      simp [List.mem_append, huv2]
  · exact hInv2.tnodup
  · exact hInv2.tvis

theorem dfs_step_pres (G : GraphDS) (fuel : Nat)
    (hv : ∀ s v, DfsInv G.vertexAmount s → v < G.vertexAmount → Vis s v = false →
      DfsPres G.vertexAmount s (dfsVisit G fuel s v))
    (s : DfsState) (e : Transaction) (hInv : DfsInv G.vertexAmount s)
    (hde : e.destination < G.vertexAmount) :
    DfsPres G.vertexAmount s (dfsStep G fuel s e) := by
  have hpres1 : DfsPres G.vertexAmount s
      { s with valuesPath := s.valuesPath.set (s.path.length - 1) e.transactionValue } :=
    DfsPres_setVals _ s _ _ hInv
  show DfsPres G.vertexAmount s
    (if s.visited.getD e.destination false = false then
      dfsVisit G fuel
        { s with valuesPath := s.valuesPath.set (s.path.length - 1) e.transactionValue }
        e.destination
    else if s.recStack.getD e.destination false = true then
      emitCycle
        { s with valuesPath := s.valuesPath.set (s.path.length - 1) e.transactionValue }
        e.destination e.transactionValue
    else { s with valuesPath := s.valuesPath.set (s.path.length - 1) e.transactionValue })
  by_cases hc1 : s.visited.getD e.destination false = false
  · rw [if_pos hc1]
    exact hpres1.comp (hv _ _ hpres1.inv hde hc1)
  · rw [if_neg hc1]
    by_cases hc2 : s.recStack.getD e.destination false = true
    · rw [if_pos hc2]
      exact hpres1.comp (DfsPres_emit _ _ _ _ hpres1.inv)
    · rw [if_neg hc2]
      exact hpres1

theorem dfs_fold_pres (G : GraphDS) (fuel : Nat)
    (hv : ∀ s v, DfsInv G.vertexAmount s → v < G.vertexAmount → Vis s v = false →
      DfsPres G.vertexAmount s (dfsVisit G fuel s v)) :
    ∀ (l : List Transaction) (s : DfsState), DfsInv G.vertexAmount s →
      (∀ e ∈ l, e.destination < G.vertexAmount) →
      DfsPres G.vertexAmount s (l.foldl (dfsStep G fuel) s) := by
  intro l
  induction l with
  | nil => exact fun s h _ => DfsPres.ofInv h
  | cons e l ih =>
    intro s hInv hdest
    rw [List.foldl_cons]
    have hstep := dfs_step_pres G fuel hv s e hInv (hdest e (by simp))
    exact hstep.comp (ih _ hstep.inv (fun e2 he2 => hdest e2 (by simp [he2])))

theorem dfs_pres (G : GraphDS) (hG : edgesInRange G) : ∀ fuel : Nat,
    ∀ s v, DfsInv G.vertexAmount s → v < G.vertexAmount → Vis s v = false →
      DfsPres G.vertexAmount s (dfsVisit G fuel s v) := by
  intro fuel
  induction fuel with
  | zero => exact fun s v h _ _ => DfsPres.ofInv h
  | succ fuel ih =>
    intro s v hInv hv hvis
    rw [dfsVisit_succ]
    have hInvM : DfsInv G.vertexAmount (dfsMark s v) := DfsInv_mark _ s v hInv hv hvis
    have hfold := dfs_fold_pres G fuel ih (G.adjList.getD v []) (dfsMark s v) hInvM
      (adj_dest_lt G hG v)
    have hnp : v ∉ s.path := fun hmem => by simp [hInv.pvis v hmem] at hvis
    have hpath2 : ((G.adjList.getD v []).foldl (dfsStep G fuel) (dfsMark s v)).path =
        s.path ++ [v] := by
      rw [hfold.path]
      rfl
    obtain ⟨hInvP, hpathP⟩ := DfsInv_pop G.vertexAmount _ v s.path hfold.inv hpath2 hnp hv
    refine ⟨hInvP, hpathP, ?_, ?_⟩
    · intro u hu
      exact hfold.vis u (Vis_mark_mono s v u hu)
    · intro r hr
      exact hfold.recs r hr

theorem bool_eq_false {b : Bool} (h : ¬b = true) : b = false := by
  cases b
  · rfl
  · exact absurd rfl h

theorem dfsVisit_marks (G : GraphDS) (hG : edgesInRange G) (fuel : Nat) (s : DfsState) (v : Nat)
    (hInv : DfsInv G.vertexAmount s) (hv : v < G.vertexAmount) (hvis : Vis s v = false) :
    Vis (dfsVisit G (fuel + 1) s v) v = true := by
  rw [dfsVisit_succ]
  have hInvM : DfsInv G.vertexAmount (dfsMark s v) := DfsInv_mark _ s v hInv hv hvis
  have hfold := dfs_fold_pres G fuel (dfs_pres G hG fuel) (G.adjList.getD v []) (dfsMark s v)
    hInvM (adj_dest_lt G hG v)
  have h1 : Vis ((G.adjList.getD v []).foldl (dfsStep G fuel) (dfsMark s v)) v = true :=
    hfold.vis v (Vis_mark_self s v (by rw [hInv.vlen]; exact hv))
  exact h1

theorem DfsInv_init (n : Nat) : DfsInv n (initState n) := by
  constructor
  · simp [initState]
  · simp [initState]
  · simp [initState]
  · simp [initState]
  · simp [initState]
  · intro u
    show (List.replicate n false).getD u false = true ↔ u ∈ ([] : List Nat)
    rw [getD_replicate_false]
    simp
  · simp [initState]
  · simp [initState]

theorem dfs_roots_pres (G : GraphDS) (hG : edgesInRange G) :
    ∀ (roots : List Nat) (s : DfsState), DfsInv G.vertexAmount s →
      (∀ v ∈ roots, v < G.vertexAmount) →
      DfsPres G.vertexAmount s
        (roots.foldl
          (fun s v => if s.visited.getD v false = true then s else dfsVisit G G.vertexAmount s v)
          s) := by
  intro roots
  induction roots with
  | nil => exact fun s h _ => DfsPres.ofInv h
  | cons v roots ih =>
    intro s hInv hroots
    rw [List.foldl_cons]
    have hv : v < G.vertexAmount := hroots v (by simp)
    have hstep : DfsPres G.vertexAmount s
        (if s.visited.getD v false = true then s else dfsVisit G G.vertexAmount s v) := by
      by_cases hc : s.visited.getD v false = true
      · rw [if_pos hc]
        exact DfsPres.ofInv hInv
      · rw [if_neg hc]
        exact dfs_pres G hG _ s v hInv hv (bool_eq_false hc)
    exact hstep.comp (ih _ hstep.inv (fun u hu => hroots u (by simp [hu])))

theorem dfs_roots_cover (G : GraphDS) (hG : edgesInRange G) :
    ∀ (roots : List Nat) (s : DfsState), DfsInv G.vertexAmount s →
      (∀ v ∈ roots, v < G.vertexAmount) → 1 ≤ G.vertexAmount →
      ∀ v ∈ roots,
        Vis (roots.foldl
          (fun s v => if s.visited.getD v false = true then s else dfsVisit G G.vertexAmount s v)
          s) v = true := by
  intro roots
  induction roots with
  | nil => intro s _ _ _ v hv; simp at hv
  | cons w roots ih =>
    intro s hInv hroots hn v hv
    rw [List.foldl_cons]
    have hw : w < G.vertexAmount := hroots w (by simp)
    have hstep : DfsPres G.vertexAmount s
        (if s.visited.getD w false = true then s else dfsVisit G G.vertexAmount s w) := by
      by_cases hc : s.visited.getD w false = true
      · rw [if_pos hc]
        exact DfsPres.ofInv hInv
      · rw [if_neg hc]
        exact dfs_pres G hG _ s w hInv hw (bool_eq_false hc)
    rcases List.mem_cons.mp hv with rfl | hvmem
    · -- v = w: visited after this step, stays visited
      have hvisw : Vis (if s.visited.getD v false = true then s
          else dfsVisit G G.vertexAmount s v) v = true := by
        by_cases hc : s.visited.getD v false = true
        · rw [if_pos hc]
          exact hc
        · rw [if_neg hc]
          obtain ⟨fuel0, hfuel⟩ : ∃ m, G.vertexAmount = m + 1 :=
            ⟨G.vertexAmount - 1, by omega⟩
          rw [hfuel]
          exact dfsVisit_marks G hG fuel0 s v hInv hw (bool_eq_false hc)
      exact (dfs_roots_pres G hG roots _ hstep.inv
        (fun u hu => hroots u (by simp [hu]))).vis v hvisw
    · exact ih _ hstep.inv (fun u hu => hroots u (by simp [hu])) hn v hvmem

-- # Self-loop emission

theorem findIdx_append_last (p : List Nat) (v : Nat) (hv : v ∉ p) :
    (p ++ [v]).findIdx (fun x => x == v) = p.length := by
  induction p with
  | nil => simp [List.findIdx_cons]
  | cons a p ih =>
    have ha : (a == v) = false := by
      simp only [beq_eq_false_iff_ne, ne_eq]
      exact fun h => hv (h ▸ List.mem_cons_self a p)
    rw [List.cons_append, List.findIdx_cons, ha]
    simp [ih (fun h => hv (List.mem_cons.mpr (Or.inr h)))]

theorem listMaxStep_zero (c : Nat) : listMaxStep 0 c = c := by
  unfold listMaxStep
  split <;> omega

theorem emit_selfloop_record (s : DfsState) (v c : Nat) (p : List Nat)
    (hp : s.path = p ++ [v]) (hvp : v ∉ p) :
    ∃ r ∈ (emitCycle s v c).records,
      r.seg = [v] ∧ r.target = v ∧ r.segVals = [] ∧ r.closing = c ∧ r.maxFlow = c := by
  have hstart : s.path.findIdx (fun x => x == v) = p.length := by
    rw [hp]
    exact findIdx_append_last p v hvp
  have hlen : s.path.length = p.length + 1 := by rw [hp]; simp
  have hseg : s.path.drop (min (s.path.findIdx (fun x => x == v)) (s.path.length - 1)) = [v] := by
    rw [hstart, hlen, hp]
    have hmin : min p.length (p.length + 1 - 1) = p.length := by omega
    rw [hmin]
    exact List.drop_left p [v]
  have hsegVals : (s.valuesPath.drop (s.path.findIdx (fun x => x == v))).take
      (s.path.length - 1 - s.path.findIdx (fun x => x == v)) = [] := by
    rw [hstart, hlen]
    simp
  refine ⟨_, List.mem_append.mpr (Or.inr (List.mem_singleton.mpr rfl)), ?_, rfl, ?_, rfl, ?_⟩
  · exact hseg
  · exact hsegVals
  · show listMaxStep (((s.valuesPath.drop (s.path.findIdx (fun x => x == v))).take
        (s.path.length - 1 - s.path.findIdx (fun x => x == v))).foldl listMaxStep 0) c = c
    rw [hsegVals]
    show listMaxStep 0 c = c
    exact listMaxStep_zero c

theorem selfloop_fold_record (G : GraphDS) (hG : edgesInRange G) (fuel : Nat) :
    ∀ (l : List Transaction) (s : DfsState) (v c : Nat) (p : List Nat),
      DfsInv G.vertexAmount s → (∀ e ∈ l, e.destination < G.vertexAmount) →
      s.path = p ++ [v] → (⟨v, c⟩ : Transaction) ∈ l →
      ∃ r ∈ (l.foldl (dfsStep G fuel) s).records,
        r.seg = [v] ∧ r.target = v ∧ r.segVals = [] ∧ r.closing = c ∧ r.maxFlow = c := by
  intro l
  induction l with
  | nil =>
    intro s v c p _ _ _ hmem
    simp at hmem
  | cons e l ih =>
    intro s v c p hInv hdest hp hmem
    rw [List.foldl_cons]
    by_cases he : e = ⟨v, c⟩
    · subst he
      have hvmem : v ∈ s.path := by rw [hp]; simp
      have hvis : s.visited.getD v false = true := hInv.pvis v hvmem
      have hstk : s.recStack.getD v false = true := (hInv.stk v).mpr hvmem
      have hstep : dfsStep G fuel s ⟨v, c⟩ =
          emitCycle { s with valuesPath := s.valuesPath.set (s.path.length - 1) c } v c := by
        show (if s.visited.getD v false = false then _
          else if s.recStack.getD v false = true then _ else _) = _
        rw [if_neg (fun h => by rw [hvis] at h; simp at h), if_pos hstk]
      rw [hstep]
      have hvp : v ∉ p := by
        have hnd := hInv.pnodup
        rw [hp] at hnd
        intro hvin
        exact (List.nodup_append.mp hnd).2.2 hvin (by simp)
      obtain ⟨r, hrmem, hrprops⟩ :=
        emit_selfloop_record
          { s with valuesPath := s.valuesPath.set (s.path.length - 1) c } v c p hp hvp
      have hInvE : DfsInv G.vertexAmount
          (emitCycle { s with valuesPath := s.valuesPath.set (s.path.length - 1) c } v c) :=
        DfsInv_emit _ _ _ _ (DfsInv_setVals _ s _ _ hInv)
      have hpres := dfs_fold_pres G fuel (dfs_pres G hG fuel) l _ hInvE
        (fun e2 he2 => hdest e2 (by simp [he2]))
      exact ⟨r, hpres.recs r hrmem, hrprops⟩
    · have hmem2 : (⟨v, c⟩ : Transaction) ∈ l := by
        rcases List.mem_cons.mp hmem with h | h
        · exact absurd h.symm he
        · exact h
      have hstep := dfs_step_pres G fuel (dfs_pres G hG fuel) s e hInv (hdest e (by simp))
      exact ih _ v c p hstep.inv (fun e2 he2 => hdest e2 (by simp [he2]))
        (by rw [hstep.path, hp]) hmem2

theorem selfloop_visit_record (G : GraphDS) (hG : edgesInRange G) (fuel : Nat)
    (s : DfsState) (v c : Nat) (hInv : DfsInv G.vertexAmount s) (hv : v < G.vertexAmount)
    (hvis : Vis s v = false) (hedge : (⟨v, c⟩ : Transaction) ∈ G.adjList.getD v []) :
    ∃ r ∈ (dfsVisit G (fuel + 1) s v).records,
      r.seg = [v] ∧ r.target = v ∧ r.segVals = [] ∧ r.closing = c ∧ r.maxFlow = c := by
  rw [dfsVisit_succ]
  have hInvM : DfsInv G.vertexAmount (dfsMark s v) := DfsInv_mark _ s v hInv hv hvis
  obtain ⟨r, hrmem, hrprops⟩ := selfloop_fold_record G hG fuel (G.adjList.getD v [])
    (dfsMark s v) v c s.path hInvM (adj_dest_lt G hG v) rfl hedge
  exact ⟨r, hrmem, hrprops⟩

-- # A flip of the visited flag of a self-looped vertex forces its record

theorem flip_fold_record (G : GraphDS) (A c : Nat) (fuel : Nat)
    (hvF : ∀ s v, DfsInv G.vertexAmount s → v < G.vertexAmount → Vis s v = false →
      Vis (dfsVisit G fuel s v) A = true → Vis s A = false →
      ∃ r ∈ (dfsVisit G fuel s v).records,
        r.seg = [A] ∧ r.target = A ∧ r.segVals = [] ∧ r.closing = c ∧ r.maxFlow = c)
    (hvS : ∀ s v, DfsInv G.vertexAmount s → v < G.vertexAmount → Vis s v = false →
      DfsPres G.vertexAmount s (dfsVisit G fuel s v)) :
    ∀ (l : List Transaction) (s : DfsState), DfsInv G.vertexAmount s →
      (∀ e ∈ l, e.destination < G.vertexAmount) →
      Vis (l.foldl (dfsStep G fuel) s) A = true → Vis s A = false →
      ∃ r ∈ (l.foldl (dfsStep G fuel) s).records,
        r.seg = [A] ∧ r.target = A ∧ r.segVals = [] ∧ r.closing = c ∧ r.maxFlow = c := by
  intro l
  induction l with
  | nil =>
    intro s _ _ hafter hbefore
    rw [List.foldl_nil] at hafter
    rw [hbefore] at hafter
    simp at hafter
  | cons e l ih =>
    intro s hInv hdest hafter hbefore
    rw [List.foldl_cons] at hafter ⊢
    have hde := hdest e (by simp)
    have hstep := dfs_step_pres G fuel hvS s e hInv hde
    by_cases hmid : Vis (dfsStep G fuel s e) A = true
    · have hrec : ∃ r ∈ (dfsStep G fuel s e).records,
          r.seg = [A] ∧ r.target = A ∧ r.segVals = [] ∧ r.closing = c ∧ r.maxFlow = c := by
        revert hmid
        show Vis (if s.visited.getD e.destination false = false then
            dfsVisit G fuel
              { s with valuesPath := s.valuesPath.set (s.path.length - 1) e.transactionValue }
              e.destination
          else if s.recStack.getD e.destination false = true then
            emitCycle
              { s with valuesPath := s.valuesPath.set (s.path.length - 1) e.transactionValue }
              e.destination e.transactionValue
          else
            { s with valuesPath := s.valuesPath.set (s.path.length - 1) e.transactionValue })
            A = true →
          ∃ r ∈ (if s.visited.getD e.destination false = false then
            dfsVisit G fuel
              { s with valuesPath := s.valuesPath.set (s.path.length - 1) e.transactionValue }
              e.destination
          else if s.recStack.getD e.destination false = true then
            emitCycle
              { s with valuesPath := s.valuesPath.set (s.path.length - 1) e.transactionValue }
              e.destination e.transactionValue
          else
            { s with valuesPath := s.valuesPath.set (s.path.length - 1) e.transactionValue }).records,
            r.seg = [A] ∧ r.target = A ∧ r.segVals = [] ∧ r.closing = c ∧ r.maxFlow = c
        by_cases hc1 : s.visited.getD e.destination false = false
        · rw [if_pos hc1]
          intro hmid
          exact hvF _ e.destination (DfsInv_setVals _ s _ _ hInv) hde hc1 hmid hbefore
        · rw [if_neg hc1]
          by_cases hc2 : s.recStack.getD e.destination false = true
          · rw [if_pos hc2]
            intro hmid
            rw [show Vis (emitCycle { s with
                valuesPath := s.valuesPath.set (s.path.length - 1) e.transactionValue }
                e.destination e.transactionValue) A = Vis s A from rfl, hbefore] at hmid
            simp at hmid
          · rw [if_neg hc2]
            intro hmid
            rw [show Vis ({ s with
                valuesPath := s.valuesPath.set (s.path.length - 1) e.transactionValue }
                : DfsState) A = Vis s A from rfl, hbefore] at hmid
            simp at hmid
      obtain ⟨r, hrmem, hrprops⟩ := hrec
      have hpres := dfs_fold_pres G fuel hvS l _ hstep.inv
        (fun e2 he2 => hdest e2 (by simp [he2]))
      exact ⟨r, hpres.recs r hrmem, hrprops⟩
    · exact ih _ hstep.inv (fun e2 he2 => hdest e2 (by simp [he2])) hafter (bool_eq_false hmid)

theorem flip_visit_record (G : GraphDS) (hG : edgesInRange G) (A c : Nat)
    (hA : A < G.vertexAmount) (hedge : (⟨A, c⟩ : Transaction) ∈ G.adjList.getD A []) :
    ∀ fuel : Nat, ∀ (s : DfsState) (v : Nat), DfsInv G.vertexAmount s →
      v < G.vertexAmount → Vis s v = false →
      Vis (dfsVisit G fuel s v) A = true → Vis s A = false →
      ∃ r ∈ (dfsVisit G fuel s v).records,
        r.seg = [A] ∧ r.target = A ∧ r.segVals = [] ∧ r.closing = c ∧ r.maxFlow = c := by
  intro fuel
  induction fuel with
  | zero =>
    intro s v _ _ _ hafter hbefore
    rw [show dfsVisit G 0 s v = s from rfl, hbefore] at hafter
    simp at hafter
  | succ fuel ih =>
    intro s v hInv hv hvis hafter hbefore
    by_cases hva : v = A
    · subst hva
      exact selfloop_visit_record G hG fuel s v c hInv hv hvis hedge
    · rw [dfsVisit_succ] at hafter ⊢
      have hInvM : DfsInv G.vertexAmount (dfsMark s v) := DfsInv_mark _ s v hInv hv hvis
      have hbefore2 : Vis (dfsMark s v) A = false := by
        show (s.visited.set v true).getD A false = false
        rw [getD_set_ne _ _ _ hva]
        exact hbefore
      have hafter2 : Vis ((G.adjList.getD v []).foldl (dfsStep G fuel) (dfsMark s v)) A
          = true := hafter
      obtain ⟨r, hrmem, hrprops⟩ := flip_fold_record G A c fuel ih (dfs_pres G hG fuel)
        (G.adjList.getD v []) (dfsMark s v) hInvM (adj_dest_lt G hG v) hafter2 hbefore2
      exact ⟨r, hrmem, hrprops⟩

theorem flip_roots_record (G : GraphDS) (hG : edgesInRange G) (A c : Nat)
    (hA : A < G.vertexAmount) (hedge : (⟨A, c⟩ : Transaction) ∈ G.adjList.getD A []) :
    ∀ (roots : List Nat) (s : DfsState), DfsInv G.vertexAmount s →
      (∀ v ∈ roots, v < G.vertexAmount) →
      Vis (roots.foldl
        (fun s v => if s.visited.getD v false = true then s else dfsVisit G G.vertexAmount s v)
        s) A = true →
      Vis s A = false →
      ∃ r ∈ (roots.foldl
        (fun s v => if s.visited.getD v false = true then s else dfsVisit G G.vertexAmount s v)
        s).records,
        r.seg = [A] ∧ r.target = A ∧ r.segVals = [] ∧ r.closing = c ∧ r.maxFlow = c := by
  intro roots
  induction roots with
  | nil =>
    intro s _ _ hafter hbefore
    rw [List.foldl_nil] at hafter
    rw [hbefore] at hafter
    simp at hafter
  | cons w roots ih =>
    intro s hInv hroots hafter hbefore
    rw [List.foldl_cons] at hafter ⊢
    have hw : w < G.vertexAmount := hroots w (by simp)
    have hstep : DfsPres G.vertexAmount s
        (if s.visited.getD w false = true then s else dfsVisit G G.vertexAmount s w) := by
      by_cases hc : s.visited.getD w false = true
      · rw [if_pos hc]
        exact DfsPres.ofInv hInv
      · rw [if_neg hc]
        exact dfs_pres G hG _ s w hInv hw (bool_eq_false hc)
    by_cases hmid : Vis (if s.visited.getD w false = true then s
        else dfsVisit G G.vertexAmount s w) A = true
    · have hrec : ∃ r ∈ (if s.visited.getD w false = true then s
          else dfsVisit G G.vertexAmount s w).records,
          r.seg = [A] ∧ r.target = A ∧ r.segVals = [] ∧ r.closing = c ∧ r.maxFlow = c := by
        by_cases hc : s.visited.getD w false = true
        · rw [if_pos hc] at hmid
          rw [hbefore] at hmid
          simp at hmid
        · rw [if_neg hc] at hmid ⊢
          exact flip_visit_record G hG A c hA hedge G.vertexAmount s w hInv hw
            (bool_eq_false hc) hmid hbefore
      obtain ⟨r, hrmem, hrprops⟩ := hrec
      have hpres := dfs_roots_pres G hG roots _ hstep.inv
        (fun u hu => hroots u (by simp [hu]))
      exact ⟨r, hpres.recs r hrmem, hrprops⟩
    · exact ih _ hstep.inv (fun u hu => hroots u (by simp [hu])) hafter (bool_eq_false hmid)

theorem selfloop_reported (G : GraphDS) (hG : edgesInRange G) (A c : Nat)
    (hA : A < G.vertexAmount) (hedge : (⟨A, c⟩ : Transaction) ∈ G.adjList.getD A []) :
    ∃ r ∈ (depthFirstSearch G).records,
      r.seg = [A] ∧ r.target = A ∧ r.segVals = [] ∧ r.closing = c ∧ r.maxFlow = c := by
  have hInit : DfsInv G.vertexAmount (initState G.vertexAmount) := DfsInv_init _
  have hroots : ∀ v ∈ List.range G.vertexAmount, v < G.vertexAmount := by
    intro v hv
    exact List.mem_range.mp hv
  have hn : 1 ≤ G.vertexAmount := by omega
  have hbefore : Vis (initState G.vertexAmount) A = false := by
    show (List.replicate G.vertexAmount false).getD A false = false
    exact getD_replicate_false _ _
  have hafter : Vis (depthFirstSearch G) A = true := by
    unfold depthFirstSearch
    exact dfs_roots_cover G hG (List.range G.vertexAmount) (initState G.vertexAmount)
      hInit hroots hn A (List.mem_range.mpr hA)
  unfold depthFirstSearch at hafter ⊢
  exact flip_roots_record G hG A c hA hedge (List.range G.vertexAmount)
    (initState G.vertexAmount) hInit hroots hafter hbefore

-- # Shape of every emitted Max Flow: the maximum over the cycle edge values

theorem listMaxStep_eq_max (a b : Nat) : listMaxStep a b = max a b := by
  unfold listMaxStep
  split <;> omega

theorem foldr_max_init (l : List Nat) : ∀ a : Nat, l.foldr max a = max a (l.foldr max 0) := by
  induction l with
  | nil => intro a; simp
  | cons x l ih =>
    intro a
    rw [List.foldr_cons, List.foldr_cons, ih a, max_left_comm]

theorem foldl_max_eq (l : List Nat) : ∀ a : Nat, l.foldl max a = max a (l.foldr max 0) := by
  induction l with
  | nil => intro a; simp
  | cons x l ih =>
    intro a
    rw [List.foldl_cons, ih (max a x), List.foldr_cons, Nat.max_assoc]

theorem maxFlow_foldr (sv : List Nat) (c : Nat) :
    listMaxStep (sv.foldl listMaxStep 0) c = (sv ++ [c]).foldr max 0 := by
  have hfun : listMaxStep = fun a b => max a b :=
    funext fun a => funext fun b => listMaxStep_eq_max a b
  rw [hfun]
  show max (sv.foldl max 0) c = (sv ++ [c]).foldr max 0
  rw [foldl_max_eq, Nat.zero_max, List.foldr_append]
  have h1 : List.foldr max 0 [c] = max c 0 := rfl
  rw [h1, Nat.max_zero, foldr_max_init sv c]
  exact Nat.max_comm _ _

theorem records_shape_step (G : GraphDS) (fuel : Nat)
    (hv : ∀ s v, (∀ r ∈ s.records, r.maxFlow = (r.segVals ++ [r.closing]).foldr max 0) →
      ∀ r ∈ (dfsVisit G fuel s v).records, r.maxFlow = (r.segVals ++ [r.closing]).foldr max 0)
    (s : DfsState) (e : Transaction)
    (h : ∀ r ∈ s.records, r.maxFlow = (r.segVals ++ [r.closing]).foldr max 0) :
    ∀ r ∈ (dfsStep G fuel s e).records,
      r.maxFlow = (r.segVals ++ [r.closing]).foldr max 0 := by
  show ∀ r ∈ (if s.visited.getD e.destination false = false then
      dfsVisit G fuel
        { s with valuesPath := s.valuesPath.set (s.path.length - 1) e.transactionValue }
        e.destination
    else if s.recStack.getD e.destination false = true then
      emitCycle
        { s with valuesPath := s.valuesPath.set (s.path.length - 1) e.transactionValue }
        e.destination e.transactionValue
    else
      { s with valuesPath := s.valuesPath.set (s.path.length - 1) e.transactionValue }).records,
    r.maxFlow = (r.segVals ++ [r.closing]).foldr max 0
  by_cases hc1 : s.visited.getD e.destination false = false
  · rw [if_pos hc1]
    exact hv _ e.destination h
  · rw [if_neg hc1]
    by_cases hc2 : s.recStack.getD e.destination false = true
    · rw [if_pos hc2]
      intro r hr
      rcases List.mem_append.mp hr with hr | hr
      · exact h r hr
      · rw [List.mem_singleton.mp hr]
        exact maxFlow_foldr _ _
    · rw [if_neg hc2]
      exact h

theorem records_shape_visit (G : GraphDS) : ∀ fuel : Nat, ∀ (s : DfsState) (v : Nat),
    (∀ r ∈ s.records, r.maxFlow = (r.segVals ++ [r.closing]).foldr max 0) →
    ∀ r ∈ (dfsVisit G fuel s v).records,
      r.maxFlow = (r.segVals ++ [r.closing]).foldr max 0 := by
  intro fuel
  induction fuel with
  | zero => exact fun s v h => h
  | succ fuel ih =>
    intro s v h
    rw [dfsVisit_succ]
    show ∀ r ∈ ((G.adjList.getD v []).foldl (dfsStep G fuel) (dfsMark s v)).records, _
    have haux : ∀ (l : List Transaction) (t : DfsState),
        (∀ r ∈ t.records, r.maxFlow = (r.segVals ++ [r.closing]).foldr max 0) →
        ∀ r ∈ (l.foldl (dfsStep G fuel) t).records,
          r.maxFlow = (r.segVals ++ [r.closing]).foldr max 0 := by
      intro l
      induction l with
      | nil => exact fun t ht => ht
      | cons e l ihl =>
        intro t ht
        rw [List.foldl_cons]
        exact ihl _ (records_shape_step G fuel ih t e ht)
    exact haux _ (dfsMark s v) h

theorem records_shape_dfs (G : GraphDS) :
    ∀ r ∈ (depthFirstSearch G).records,
      r.maxFlow = (r.segVals ++ [r.closing]).foldr max 0 := by
  unfold depthFirstSearch
  have haux : ∀ (roots : List Nat) (s : DfsState),
      (∀ r ∈ s.records, r.maxFlow = (r.segVals ++ [r.closing]).foldr max 0) →
      ∀ r ∈ (roots.foldl
        (fun s v => if s.visited.getD v false = true then s else dfsVisit G G.vertexAmount s v)
        s).records,
        r.maxFlow = (r.segVals ++ [r.closing]).foldr max 0 := by
    intro roots
    induction roots with
    | nil => exact fun s hs => hs
    | cons w roots ih =>
      intro s hs
      rw [List.foldl_cons]
      apply ih
      by_cases hc : s.visited.getD w false = true
      · rw [if_pos hc]
        exact hs
      · rw [if_neg hc]
        exact records_shape_visit G G.vertexAmount s w hs
  apply haux
  intro r hr
  simp [initState] at hr

-- # Interning lemmas

theorem addToHash_nodup (m : List String) (a : String) (h : m.Nodup) :
    (addToHash m a).Nodup := by
  unfold addToHash
  split
  · exact h
  · rename_i hnm
    simp [List.nodup_append, h, hnm]

theorem mem_addToHash (m : List String) (a b : String) :
    b ∈ addToHash m a ↔ b ∈ m ∨ b = a := by
  unfold addToHash
  split
  · rename_i hm
    constructor
    · exact fun h => Or.inl h
    · rintro (h | rfl)
      · exact h
      · exact hm
  · simp [List.mem_append]

theorem indexOf_addToHash_of_mem (m : List String) (a b : String) (h : b ∈ m) :
    (addToHash m a).indexOf b = m.indexOf b := by
  unfold addToHash
  split
  · rfl
  · exact List.indexOf_append_of_mem h

theorem foldl_addToHash_nodup (L : List String) :
    ∀ m : List String, m.Nodup → (L.foldl addToHash m).Nodup := by
  induction L with
  | nil => exact fun m h => h
  | cons a L ih => exact fun m h => ih _ (addToHash_nodup m a h)

theorem mem_foldl_addToHash (L : List String) :
    ∀ (m : List String) (b : String), b ∈ L.foldl addToHash m ↔ b ∈ m ∨ b ∈ L := by
  induction L with
  | nil => simp
  | cons a L ih =>
    intro m b
    rw [List.foldl_cons, ih _ b, mem_addToHash]
    simp [List.mem_cons]
    tauto

theorem indexOf_foldl_addToHash (L : List String) :
    ∀ (m : List String) (b : String), b ∈ m →
      (L.foldl addToHash m).indexOf b = m.indexOf b := by
  induction L with
  | nil => exact fun m b _ => rfl
  | cons a L ih =>
    intro m b hb
    rw [List.foldl_cons, ih _ b ((mem_addToHash m a b).mpr (Or.inl hb))]
    exact indexOf_addToHash_of_mem m a b hb

theorem internAll_nodup (L : List String) : (internAll L).Nodup :=
  foldl_addToHash_nodup L [] (by simp)

theorem mem_internAll (L : List String) (b : String) : b ∈ internAll L ↔ b ∈ L := by
  unfold internAll
  rw [mem_foldl_addToHash]
  simp

theorem internAll_first_appearance (L1 L2 : List String) (a : String) (h : a ∉ L1) :
    getVertexIndex (internAll (L1 ++ a :: L2)) a = (internAll L1).length := by
  have hnm : a ∉ internAll L1 := fun hm => h ((mem_internAll L1 a).mp hm)
  have hstep : addToHash (internAll L1) a = internAll L1 ++ [a] := by
    unfold addToHash
    rw [if_neg hnm]
  have hsplit : internAll (L1 ++ a :: L2) = L2.foldl addToHash (internAll L1 ++ [a]) := by
    unfold internAll
    rw [List.foldl_append, List.foldl_cons]
    unfold internAll at hstep
    rw [hstep]
  rw [hsplit]
  unfold getVertexIndex
  rw [indexOf_foldl_addToHash L2 _ a (by simp)]
  rw [List.indexOf_append_of_not_mem hnm]
  simp

-- # C4: the interning bijection

/-- C4: interning assigns one index per distinct identifier: re-interning
returns the same index, indices of interned identifiers are exactly
0..N-1 without reuse, the index of an identifier is where it first
appeared, and the final counter N is the number of distinct identifiers. -/
theorem claim_C4_interning_bijection (L : List String) :
    (∀ (m : List String) (a : String),
      addToHash (addToHash m a) a = addToHash m a ∧
      getVertexIndex (addToHash (addToHash m a) a) a = getVertexIndex (addToHash m a) a) ∧
    (∀ a ∈ internAll L, getVertexIndex (internAll L) a < (internAll L).length) ∧
    (∀ a ∈ internAll L, ∀ b ∈ internAll L,
      getVertexIndex (internAll L) a = getVertexIndex (internAll L) b → a = b) ∧
    (∀ i < (internAll L).length, ∃ a ∈ internAll L, getVertexIndex (internAll L) a = i) ∧
    (∀ a, a ∈ internAll L ↔ a ∈ L) ∧
    (∀ (L1 L2 : List String) (a : String), a ∉ L1 → L = L1 ++ a :: L2 →
      getVertexIndex (internAll L) a = (internAll L1).length) ∧
    (internAll L).length = L.dedup.length := by
  refine ⟨?_, ?_, ?_, ?_, mem_internAll L, ?_, ?_⟩
  · intro m a
    have hmem : a ∈ addToHash m a := (mem_addToHash m a a).mpr (Or.inr rfl)
    have hidem : addToHash (addToHash m a) a = addToHash m a := by
      show (if a ∈ addToHash m a then addToHash m a else addToHash m a ++ [a]) = addToHash m a
      rw [if_pos hmem]
    exact ⟨hidem, by rw [hidem]⟩
  · intro a ha
    exact List.indexOf_lt_length.mpr ha
  · intro a ha b hb hab
    exact (List.indexOf_inj ha hb).mp hab
  · intro i hi
    refine ⟨(internAll L).get ⟨i, hi⟩, List.get_mem _ i hi, ?_⟩
    exact List.get_indexOf (internAll_nodup L) _
  · intro L1 L2 a hnm hL
    subst hL
    exact internAll_first_appearance L1 L2 a hnm
  · have h1 : (internAll L).toFinset = L.toFinset := by
      ext a
      simp [List.mem_toFinset, mem_internAll]
    calc (internAll L).length = (internAll L).toFinset.card :=
          (List.toFinset_card_of_nodup (internAll_nodup L)).symm
      _ = L.toFinset.card := by rw [h1]
      _ = L.dedup.length := List.card_toFinset L


example : (loadGraph file1).edgesAmount = 2 := by decide
example : (file1.filter (fun t => (parse_wei_optimized t.val).toOption.isSome)).length = 3 := by decide
example : (depthFirstSearch threeCycleGraph).records =
    [{ num := 1, seg := [0, 1, 2], target := 0, segVals := [5, 9], closing := 2, maxFlow := 9 }] := by decide
example : ({ num := 1, seg := [0,1,2], target := 0, segVals := [5,9], closing := 2, maxFlow := 9 } : CycleRecord) ∈ (depthFirstSearch threeCycleGraph).records := by decide
example : edgesInRange threeCycleGraph := by unfold edgesInRange; decide
example : getVertexIndex (internAll ["a", "b", "a"]) "b" < (internAll ["a", "b", "a"]).length := by decide
example : "b" ∈ internAll ["a", "b", "a"] := by decide
example : ({ destination := 0, transactionValue := 7 } : Transaction) ∈ selfLoopGraph.adjList.getD 0 [] := by decide
example : parse_wei_optimized ['1', '.', '5', 'e'] = .error (-2) := rfl
example : (parse_wei_optimized ['1', '.', '5', 'e']).toOption = none := rfl
example : noParsableInt ['X'] = true := by decide

-- # The recorded cycle values are real graph edges

theorem getD_drop (l : List Nat) (i j d : Nat) : (l.drop i).getD j d = l.getD (i + j) d := by
  simp [List.getD_eq_getElem?_getD, List.getElem?_drop]

theorem getD_take (l : List Nat) (n i d : Nat) (h : i < n) :
    (l.take n).getD i d = l.getD i d := by
  simp [List.getD_eq_getElem?_getD, List.getElem?_take, h]

theorem getD_concat_length (p : List Nat) (v d : Nat) : (p ++ [v]).getD p.length d = v := by
  simp [List.getD_eq_getElem?_getD, List.getElem?_concat_length]

theorem getD_append_left (l1 l2 : List Nat) (i d : Nat) (h : i < l1.length) :
    (l1 ++ l2).getD i d = l1.getD i d := by
  simp [List.getD_eq_getElem?_getD, List.getElem?_append, h]

theorem getD_dropLast (l : List Nat) (i d : Nat) (h : i + 1 < l.length) :
    l.dropLast.getD i d = l.getD i d := by
  have h2 : i < l.length - 1 := by omega
  simp [List.getD_eq_getElem?_getD, List.getElem?_dropLast, h2]
  rw [List.getElem?_eq_getElem (show i < l.length by omega)]
  rfl

theorem nodup_bounded_length (l : List Nat) (n : Nat) (hn : l.Nodup)
    (hlt : ∀ u ∈ l, u < n) : l.length ≤ n := by
  have h1 : l.toFinset.card = l.length := List.toFinset_card_of_nodup hn
  have h2 : l.toFinset ⊆ Finset.range n := by
    intro u hu
    simp only [List.mem_toFinset] at hu
    simp [Finset.mem_range, hlt u hu]
  have h3 := Finset.card_le_card h2
  rw [h1, Finset.card_range] at h3
  exact h3

theorem ChainOk_setVals (G : GraphDS) (t : DfsState) (c : Nat)
    (h : ChainOk G t.path t.valuesPath) :
    ChainOk G t.path (t.valuesPath.set (t.path.length - 1) c) := by
  intro i hi
  obtain ⟨e, he, h1, h2⟩ := h i hi
  refine ⟨e, he, h1, ?_⟩
  rw [getD_set_ne _ _ _ (by omega)]
  exact h2

theorem emit_RecOk (G : GraphDS) (t1 : DfsState) (p : List Nat) (v w c n : Nat)
    (hpath : t1.path = p ++ [v]) (hlen : t1.path.length ≤ n)
    (hvlen : t1.valuesPath.length = n)
    (hchain : ChainOk G t1.path t1.valuesPath)
    (hedge : ∃ e ∈ G.adjList.getD v [], e.destination = w ∧ e.transactionValue = c)
    (hrecs : ∀ r ∈ t1.records, RecOk G r) :
    ∀ r ∈ (emitCycle t1 w c).records, RecOk G r := by
  intro r hr
  rcases List.mem_append.mp hr with hr | hr
  · exact hrecs r hr
  · rw [List.mem_singleton.mp hr]
    have hL : t1.path.length = p.length + 1 := by rw [hpath]; simp
    have hstartle : t1.path.findIdx (fun x => x == w) ≤ t1.path.length :=
      List.findIdx_le_length _
    have hlastv : t1.path.getD (t1.path.length - 1) 0 = v := by
      rw [hpath]
      have hp : (p ++ [v]).length - 1 = p.length := by simp
      rw [hp]
      exact getD_concat_length p v 0
    rcases Nat.lt_or_ge (t1.path.findIdx (fun x => x == w)) t1.path.length with hlt | hge
    · -- the target was found in the buffer
      set st := t1.path.findIdx (fun x => x == w) with hst
      have hmin : min st (t1.path.length - 1) = st := by omega
      constructor
      · -- seg nonempty
        show t1.path.drop (min st (t1.path.length - 1)) ≠ []
        rw [hmin]
        intro hnil
        have := List.length_drop st t1.path
        rw [hnil] at this
        simp at this
        omega
      refine ⟨?_, ?_, ?_⟩
      · -- lengths
        show ((t1.valuesPath.drop st).take (t1.path.length - 1 - st)).length + 1 =
          (t1.path.drop (min st (t1.path.length - 1))).length
        rw [hmin, List.length_take, List.length_drop, List.length_drop, hvlen]
        omega
      · -- interior edges
        intro i hi
        rw [hmin] at hi ⊢
        rw [List.length_drop] at hi
        have hi2 : st + i + 1 < t1.path.length := by omega
        obtain ⟨e, he, h1, h2⟩ := hchain (st + i) hi2
        refine ⟨e, ?_, ?_, ?_⟩
        · rw [getD_drop]
          exact he
        · rw [getD_drop, h1]
          have : st + (i + 1) = st + i + 1 := by omega
          rw [this]
        · rw [getD_take _ _ _ _ (by omega), getD_drop]
          exact h2
      · -- closing edge
        rw [hmin]
        have hseglen : (t1.path.drop st).length = t1.path.length - st :=
          List.length_drop st t1.path
        rw [hseglen, getD_drop]
        have : st + (t1.path.length - st - 1) = t1.path.length - 1 := by omega
        rw [this, hlastv]
        exact hedge
    · -- the target was not found: findIdx returned the length
      have hst : t1.path.findIdx (fun x => x == w) = t1.path.length := by omega
      have hmin : min (t1.path.findIdx (fun x => x == w)) (t1.path.length - 1) =
          t1.path.length - 1 := by omega
      have hseg : t1.path.drop (t1.path.length - 1) = [v] := by
        rw [hpath]
        have hp : p.length = (p ++ [v]).length - 1 := by simp
        rw [← hp]
        exact List.drop_left p [v]
      constructor
      · show t1.path.drop (min (t1.path.findIdx (fun x => x == w)) (t1.path.length - 1)) ≠ []
        rw [hmin, hseg]
        simp
      refine ⟨?_, ?_, ?_⟩
      · show ((t1.valuesPath.drop (t1.path.findIdx (fun x => x == w))).take
            (t1.path.length - 1 - t1.path.findIdx (fun x => x == w))).length + 1 =
          (t1.path.drop (min (t1.path.findIdx (fun x => x == w)) (t1.path.length - 1))).length
        rw [hmin, hseg, hst]
        simp
      · intro i hi
        rw [hmin, hseg] at hi
        simp at hi
      · rw [hmin, hseg, hst]
        have h0 : (([v] : List Nat).getD 0 0) = v := rfl
        simp only [List.length_singleton, Nat.sub_self, h0]
        exact hedge
theorem dfsStep_eq (G : GraphDS) (fuel : Nat) (t : DfsState) (e : Transaction) :
    dfsStep G fuel t e =
      (if t.visited.getD e.destination false = false then
        dfsVisit G fuel (setTop t e.transactionValue) e.destination
      else if t.recStack.getD e.destination false = true then
        emitCycle (setTop t e.transactionValue) e.destination e.transactionValue
      else setTop t e.transactionValue) := rfl

theorem setTop_vlen (t : DfsState) (c n : Nat) (h : t.valuesPath.length = n) :
    (setTop t c).valuesPath.length = n := by
  show (t.valuesPath.set (t.path.length - 1) c).length = n
  rw [List.length_set]
  exact h

theorem ChainOk_setTop (G : GraphDS) (t : DfsState) (c : Nat)
    (h : ChainOk G t.path t.valuesPath) :
    ChainOk G (setTop t c).path (setTop t c).valuesPath :=
  ChainOk_setVals G t c h

theorem setTop_getD_lower (t : DfsState) (c i d : Nat) (h : i + 1 < t.path.length) :
    (setTop t c).valuesPath.getD i d = t.valuesPath.getD i d := by
  show (t.valuesPath.set (t.path.length - 1) c).getD i d = t.valuesPath.getD i d
  exact getD_set_ne _ _ _ (by omega)

theorem setTop_getD_top (t : DfsState) (c : Nat) (h : t.path.length - 1 < t.valuesPath.length) :
    (setTop t c).valuesPath.getD (t.path.length - 1) 0 = c := by
  show (t.valuesPath.set (t.path.length - 1) c).getD (t.path.length - 1) 0 = c
  exact getD_set_self _ _ _ _ h

theorem chain_fold (G : GraphDS) (hG : edgesInRange G) (fuel : Nat)
    (hv : ∀ s v, DfsInv G.vertexAmount s → v < G.vertexAmount → Vis s v = false →
      s.valuesPath.length = G.vertexAmount →
      ChainOk G s.path s.valuesPath →
      (s.path = [] ∨ ∃ e ∈ G.adjList.getD (s.path.getD (s.path.length - 1) 0) [],
        e.destination = v ∧ e.transactionValue = s.valuesPath.getD (s.path.length - 1) 0) →
      (∀ r ∈ s.records, RecOk G r) →
      ChainOk G (dfsVisit G fuel s v).path (dfsVisit G fuel s v).valuesPath ∧
      (dfsVisit G fuel s v).valuesPath.length = G.vertexAmount ∧
      (∀ i d, i < s.path.length →
        (dfsVisit G fuel s v).valuesPath.getD i d = s.valuesPath.getD i d) ∧
      (∀ r ∈ (dfsVisit G fuel s v).records, RecOk G r)) :
    ∀ (l : List Transaction) (t : DfsState) (p : List Nat) (v : Nat),
      DfsInv G.vertexAmount t →
      (∀ e ∈ l, e ∈ G.adjList.getD v []) →
      t.path = p ++ [v] →
      t.valuesPath.length = G.vertexAmount →
      ChainOk G t.path t.valuesPath →
      (∀ r ∈ t.records, RecOk G r) →
      ChainOk G (l.foldl (dfsStep G fuel) t).path (l.foldl (dfsStep G fuel) t).valuesPath ∧
      (l.foldl (dfsStep G fuel) t).valuesPath.length = G.vertexAmount ∧
      (∀ i d, i + 1 < t.path.length →
        (l.foldl (dfsStep G fuel) t).valuesPath.getD i d = t.valuesPath.getD i d) ∧
      (∀ r ∈ (l.foldl (dfsStep G fuel) t).records, RecOk G r) := by
  intro l
  induction l with
  | nil =>
    intro t p v hInv hsub hpathv hvlen hchain hrecs
    exact ⟨hchain, hvlen, fun i d _ => rfl, hrecs⟩
  | cons e l ih =>
    intro t p v hInv hsub hpathv hvlen hchain hrecs
    rw [List.foldl_cons]
    have hLp : t.path.length = p.length + 1 := by rw [hpathv]; simp
    have hLn : t.path.length ≤ G.vertexAmount :=
      nodup_bounded_length _ _ hInv.pnodup hInv.plt
    have he : e ∈ G.adjList.getD v [] := hsub e (by simp)
    have hde : e.destination < G.vertexAmount := adj_dest_lt G hG v e he
    have hInv1 : DfsInv G.vertexAmount (setTop t e.transactionValue) :=
      DfsInv_setVals _ t _ _ hInv
    have ht1vlen : (setTop t e.transactionValue).valuesPath.length = G.vertexAmount :=
      setTop_vlen t _ _ hvlen
    have hchain1 : ChainOk G (setTop t e.transactionValue).path
        (setTop t e.transactionValue).valuesPath := ChainOk_setTop G t _ hchain
    have hlastval : (setTop t e.transactionValue).valuesPath.getD
        ((setTop t e.transactionValue).path.length - 1) 0 = e.transactionValue := by
      show (setTop t e.transactionValue).valuesPath.getD (t.path.length - 1) 0 =
        e.transactionValue
      exact setTop_getD_top t _ (by rw [hvlen]; omega)
    have hlastv : (setTop t e.transactionValue).path.getD
        ((setTop t e.transactionValue).path.length - 1) 0 = v := by
      show t.path.getD (t.path.length - 1) 0 = v
      rw [hpathv]
      have h1 : (p ++ [v]).length - 1 = p.length := by simp
      rw [h1]
      exact getD_concat_length p v 0
    have hrecs1 : ∀ r ∈ (setTop t e.transactionValue).records, RecOk G r := hrecs
    have hmain : (dfsStep G fuel t e).path = t.path ∧
        DfsInv G.vertexAmount (dfsStep G fuel t e) ∧
        (dfsStep G fuel t e).valuesPath.length = G.vertexAmount ∧
        ChainOk G (dfsStep G fuel t e).path (dfsStep G fuel t e).valuesPath ∧
        (∀ i d, i + 1 < t.path.length →
          (dfsStep G fuel t e).valuesPath.getD i d = t.valuesPath.getD i d) ∧
        (∀ r ∈ (dfsStep G fuel t e).records, RecOk G r) := by
      rw [dfsStep_eq]
      by_cases hc1 : t.visited.getD e.destination false = false
      · rw [if_pos hc1]
        have hpres2 := dfs_pres G hG fuel (setTop t e.transactionValue) e.destination
          hInv1 hde hc1
        have hpre : (setTop t e.transactionValue).path = [] ∨
            ∃ e2 ∈ G.adjList.getD ((setTop t e.transactionValue).path.getD
              ((setTop t e.transactionValue).path.length - 1) 0) [],
              e2.destination = e.destination ∧
              e2.transactionValue = (setTop t e.transactionValue).valuesPath.getD
                ((setTop t e.transactionValue).path.length - 1) 0 := by
          right
          rw [hlastv]
          exact ⟨e, he, rfl, hlastval.symm⟩
        obtain ⟨hchain2, hvlen2, hvpre2, hrecs2⟩ := hv (setTop t e.transactionValue)
          e.destination hInv1 hde hc1 ht1vlen hchain1 hpre hrecs1
        refine ⟨?_, hpres2.inv, hvlen2, hchain2, ?_, hrecs2⟩
        · rw [hpres2.path]
          rfl
        · intro i d hi
          rw [hvpre2 i d (by show i < t.path.length; omega)]
          exact setTop_getD_lower t _ i d hi
      · rw [if_neg hc1]
        by_cases hc2 : t.recStack.getD e.destination false = true
        · rw [if_pos hc2]
          refine ⟨rfl, DfsInv_emit _ _ _ _ hInv1, ht1vlen, hchain1, ?_, ?_⟩
          · intro i d hi
            exact setTop_getD_lower t _ i d hi
          · exact emit_RecOk G (setTop t e.transactionValue) p v e.destination
              e.transactionValue G.vertexAmount hpathv (by show t.path.length ≤ _; omega)
              ht1vlen hchain1 ⟨e, he, rfl, rfl⟩ hrecs1
        · rw [if_neg hc2]
          refine ⟨rfl, hInv1, ht1vlen, hchain1, ?_, hrecs1⟩
          intro i d hi
          exact setTop_getD_lower t _ i d hi
    obtain ⟨hpath2, hInv2, hvlen2, hchain2, hvpre2, hrecs2⟩ := hmain
    have hsub2 : ∀ e2 ∈ l, e2 ∈ G.adjList.getD v [] := fun e2 he2 => hsub e2 (by simp [he2])
    obtain ⟨hchain3, hvlen3, hvpre3, hrecs3⟩ := ih (dfsStep G fuel t e) p v hInv2 hsub2
      (by rw [hpath2]; exact hpathv) hvlen2 hchain2 hrecs2
    refine ⟨hchain3, hvlen3, ?_, hrecs3⟩
    intro i d hi
    rw [hvpre3 i d (by rw [hpath2]; exact hi)]
    exact hvpre2 i d hi

theorem chain_visit (G : GraphDS) (hG : edgesInRange G) : ∀ fuel : Nat,
    ∀ s v, DfsInv G.vertexAmount s → v < G.vertexAmount → Vis s v = false →
      s.valuesPath.length = G.vertexAmount →
      ChainOk G s.path s.valuesPath →
      (s.path = [] ∨ ∃ e ∈ G.adjList.getD (s.path.getD (s.path.length - 1) 0) [],
        e.destination = v ∧ e.transactionValue = s.valuesPath.getD (s.path.length - 1) 0) →
      (∀ r ∈ s.records, RecOk G r) →
      ChainOk G (dfsVisit G fuel s v).path (dfsVisit G fuel s v).valuesPath ∧
      (dfsVisit G fuel s v).valuesPath.length = G.vertexAmount ∧
      (∀ i d, i < s.path.length →
        (dfsVisit G fuel s v).valuesPath.getD i d = s.valuesPath.getD i d) ∧
      (∀ r ∈ (dfsVisit G fuel s v).records, RecOk G r) := by
  intro fuel
  induction fuel with
  | zero =>
    intro s v _ _ _ hvlen hchain _ hrecs
    exact ⟨hchain, hvlen, fun i d _ => rfl, hrecs⟩
  | succ fuel ihf =>
    intro s v hInv hv hvis hvlen hchain hpre hrecs
    rw [dfsVisit_succ]
    have hInvM : DfsInv G.vertexAmount (dfsMark s v) := DfsInv_mark _ s v hInv hv hvis
    have hmpath : (dfsMark s v).path = s.path ++ [v] := rfl
    have hmvlen : (dfsMark s v).valuesPath.length = G.vertexAmount := hvlen
    have hchainM : ChainOk G (dfsMark s v).path (dfsMark s v).valuesPath := by
      intro i hi
      rw [hmpath] at hi ⊢
      rw [List.length_append, List.length_singleton] at hi
      rcases Nat.lt_or_ge (i + 1) s.path.length with hlt | hge
      · obtain ⟨e, he, h1, h2⟩ := hchain i hlt
        refine ⟨e, ?_, ?_, h2⟩
        · rw [getD_append_left _ _ _ _ (by omega)]
          exact he
        · rw [getD_append_left _ _ _ _ hlt]
          exact h1
      · -- the new edge crossing onto the pushed vertex
        have hieq : i + 1 = s.path.length := by omega
        rcases hpre with hnil | ⟨e, he, h1, h2⟩
        · rw [hnil] at hieq
          simp at hieq
        · have hia : i = s.path.length - 1 := by omega
          refine ⟨e, ?_, ?_, ?_⟩
          · rw [getD_append_left _ _ _ _ (by omega), hia]
            exact he
          · rw [hieq, getD_concat_length]
            exact h1
          · rw [hia]
            exact h2
    have hrecsM : ∀ r ∈ (dfsMark s v).records, RecOk G r := hrecs
    obtain ⟨hchainF, hvlenF, hvpreF, hrecsF⟩ := chain_fold G hG fuel ihf
      (G.adjList.getD v []) (dfsMark s v) s.path v hInvM (fun e2 he2 => he2) hmpath
      hmvlen hchainM hrecsM
    have hfoldp := dfs_fold_pres G fuel (dfs_pres G hG fuel) (G.adjList.getD v [])
      (dfsMark s v) hInvM (adj_dest_lt G hG v)
    have hflen : ((G.adjList.getD v []).foldl (dfsStep G fuel) (dfsMark s v)).path.length =
        s.path.length + 1 := by
      rw [hfoldp.path, hmpath]
      simp
    refine ⟨?_, hvlenF, ?_, hrecsF⟩
    · intro i hi
      have hilen : i + 1 < s.path.length := by
        have := hi
        show i + 1 < s.path.length
        have hdl : (dfsPop ((G.adjList.getD v []).foldl (dfsStep G fuel) (dfsMark s v))
            v).path.length = s.path.length := by
          show ((G.adjList.getD v []).foldl (dfsStep G fuel) (dfsMark s v)).path.dropLast.length
            = s.path.length
          rw [List.length_dropLast, hflen]
          simp
        rw [hdl] at this
        exact this
      have h1 : (dfsPop ((G.adjList.getD v []).foldl (dfsStep G fuel) (dfsMark s v))
          v).path.getD i 0 =
          ((G.adjList.getD v []).foldl (dfsStep G fuel) (dfsMark s v)).path.getD i 0 :=
        getD_dropLast _ i 0 (by omega)
      have h2 : (dfsPop ((G.adjList.getD v []).foldl (dfsStep G fuel) (dfsMark s v))
          v).path.getD (i + 1) 0 =
          ((G.adjList.getD v []).foldl (dfsStep G fuel) (dfsMark s v)).path.getD (i + 1) 0 :=
        getD_dropLast _ (i + 1) 0 (by omega)
      obtain ⟨e, he, he1, he2⟩ := hchainF i (by omega)
      rw [h1, h2]
      exact ⟨e, he, he1, he2⟩
    · intro i d hi
      have h3 : (dfsPop ((G.adjList.getD v []).foldl (dfsStep G fuel) (dfsMark s v))
          v).valuesPath =
          ((G.adjList.getD v []).foldl (dfsStep G fuel) (dfsMark s v)).valuesPath := rfl
      rw [h3]
      rw [hvpreF i d (by rw [hmpath]; rw [List.length_append, List.length_singleton]; omega)]
      rfl

theorem chain_roots (G : GraphDS) (hG : edgesInRange G) :
    ∀ (roots : List Nat) (s : DfsState), DfsInv G.vertexAmount s →
      (∀ v ∈ roots, v < G.vertexAmount) → s.path = [] →
      s.valuesPath.length = G.vertexAmount →
      (∀ r ∈ s.records, RecOk G r) →
      ∀ r ∈ (roots.foldl
        (fun s v => if s.visited.getD v false = true then s else dfsVisit G G.vertexAmount s v)
        s).records, RecOk G r := by
  intro roots
  induction roots with
  | nil =>
    intro s _ _ _ _ hrecs r hr
    exact hrecs r hr
  | cons v roots ih =>
    intro s hInv hroots hpath0 hvlen hrecs
    rw [List.foldl_cons]
    have hv : v < G.vertexAmount := hroots v (by simp)
    by_cases hc : s.visited.getD v false = true
    · rw [if_pos hc]
      exact ih s hInv (fun u hu => hroots u (by simp [hu])) hpath0 hvlen hrecs
    · rw [if_neg hc]
      have hchain0 : ChainOk G s.path s.valuesPath := by
        intro i hi
        rw [hpath0] at hi
        simp at hi
      obtain ⟨_, hvlen2, _, hrecs2⟩ := chain_visit G hG G.vertexAmount s v hInv hv
        (bool_eq_false hc) hvlen hchain0 (Or.inl hpath0) hrecs
      have hpres := dfs_pres G hG G.vertexAmount s v hInv hv (bool_eq_false hc)
      exact ih (dfsVisit G G.vertexAmount s v) hpres.inv
        (fun u hu => hroots u (by simp [hu])) (by rw [hpres.path]; exact hpath0)
        hvlen2 hrecs2

theorem records_RecOk (G : GraphDS) (hG : edgesInRange G) :
    ∀ r ∈ (depthFirstSearch G).records, RecOk G r := by
  intro r hr
  exact chain_roots G hG (List.range G.vertexAmount) (initState G.vertexAmount)
    (DfsInv_init G.vertexAmount) (fun v hv => List.mem_range.mp hv) rfl
    (by simp [initState]) (fun r2 hr2 => by simp [initState] at hr2) r hr

-- # Claim theorems

/-- C1: the second pass is documented to read every line, but loadGraph
passes the vertex count as the number of transactions to read; on a
three-line file over two wallets only two edges are inserted although all
three lines are well formed and parsable, so the final edge count differs
from the number of well-formed parsable lines. -/
theorem claim_C1_loader_edge_count :
    (loadGraph file1).edgesAmount = 2 ∧
    (file1.filter (fun t => (parse_wei_optimized t.val).toOption.isSome)).length = 3 ∧
    (2 : Nat) ≠ 3 := by
  refine ⟨by decide, by decide, by decide⟩

/-- C2 as stated is false: on the syntactically valid token
1e99999999999999999999 the C exponent lives in a long, strtol saturates
it at LONG_MAX, and the parser does not return the mantissa times ten to
the token's own exponent. -/
theorem claim_C2_counterexample :
    parse_wei_optimized
        (renderToken .nosign [1] none (some ('e', .nosign, List.replicate 20 9))) ≠
      .ok (tokenMantissa [1] none *
        10 ^ (tokenExponent (some ('e', .nosign, List.replicate 20 9)) -
          (tokenDecimals none : Int)).toNat) := by
  rw [parse_renderToken .nosign [1] none (some ('e', .nosign, List.replicate 20 9))
    (by decide) (by decide) (fun f hf => by simp at hf)
    (fun p hp => by injection hp with h; subst h; decide)
    (fun p hp => by injection hp with h; subst h; exact ⟨by decide, by decide⟩)]
  have hE : tokenExponent (some ('e', SignO.nosign, List.replicate 20 9)) =
      (99999999999999999999 : Int) := by decide
  have hD : (tokenDecimals none : Int) = 0 := by decide
  rw [hE, hD]
  have hCE : clampLong (99999999999999999999 : Int) = (9223372036854775807 : Int) := by decide
  rw [hCE]
  rw [if_neg (by decide), if_pos (by decide)]
  intro h
  injection h with h2
  have ha : ((9223372036854775807 : Int) - 0).toNat = 9223372036854775807 := by decide
  have hb : ((99999999999999999999 : Int) - 0).toNat = 99999999999999999999 := by decide
  rw [ha, hb] at h2
  have h4 : (10 : Nat) ^ (9223372036854775807 : Nat) = 10 ^ (99999999999999999999 : Nat) :=
    Nat.eq_of_mul_eq_mul_left (by decide) h2
  exact absurd h4 (Nat.ne_of_lt (Nat.pow_lt_pow_right (by norm_num) (by norm_num)))

/-- C2 amended: on a syntactically valid token whose exponent fits the C
long (so strtol does not saturate) and whose net power stays above
LONG_MIN (so the program's long arithmetic is defined), the parser
returns the exact integer value: mantissa times 10 to the net power when
that power is nonnegative, and the exact quotient when it is negative and
divides evenly. -/
theorem claim_C2_valid_token_value (sg : SignO) (ip : List Nat) (fp : Option (List Nat))
    (ex : Option (Char × SignO × List Nat))
    (hip : ip ≠ []) (h1 : ∀ d ∈ ip, d < 10)
    (h2 : ∀ f ∈ fp, ∀ d ∈ f, d < 10)
    (h3 : ∀ p ∈ ex, isExpChar p.1 = true)
    (h4 : ∀ p ∈ ex, p.2.2 ≠ [] ∧ ∀ d ∈ p.2.2, d < 10)
    (hlo : LONG_MIN ≤ tokenExponent ex) (hhi : tokenExponent ex ≤ LONG_MAX)
    (hdef : LONG_MIN < tokenExponent ex - (tokenDecimals fp : Int)) :
    (0 ≤ tokenExponent ex - (tokenDecimals fp : Int) →
      parse_wei_optimized (renderToken sg ip fp ex) =
        .ok (tokenMantissa ip fp * 10 ^ (tokenExponent ex - (tokenDecimals fp : Int)).toNat)) ∧
    (tokenExponent ex - (tokenDecimals fp : Int) < 0 →
      10 ^ (-(tokenExponent ex - (tokenDecimals fp : Int))).toNat ∣ tokenMantissa ip fp →
      parse_wei_optimized (renderToken sg ip fp ex) =
        .ok (tokenMantissa ip fp /
          10 ^ (-(tokenExponent ex - (tokenDecimals fp : Int))).toNat)) := by
  rw [parse_renderToken sg ip fp ex hip h1 h2 h3 h4]
  rw [clampLong_eq_self _ hlo hhi]
  rw [if_neg (by omega)]
  constructor
  · intro hnp
    rcases lt_or_eq_of_le hnp with hlt | heq
    · rw [if_pos hlt]
    · rw [if_neg (by omega), if_neg (by omega)]
      rw [← heq]
      simp
  · intro hnp hdvd
    rw [if_neg (by omega), if_pos hnp]
    have hmod : tokenMantissa ip fp %
        10 ^ (-(tokenExponent ex - (tokenDecimals fp : Int))).toNat = 0 :=
      Nat.dvd_iff_mod_eq_zero.mp hdvd
    rw [if_neg (fun hne => hne hmod)]

/-- C3's -2 conjunct as stated is false: the valid token
1.5e-99999999999999999999 has a negative net power and a nonzero
remainder, yet strtol saturates the exponent at LONG_MIN and the program's
long computation of final_power_of_10 leaves the defined domain (marker
-3 in the model), so the program guarantees no -2 there. -/
theorem claim_C3_counterexample :
    tokenExponent (some ('e', .minus, List.replicate 20 9)) -
        (tokenDecimals (some [5]) : Int) < 0 ∧
    ¬(10 ^ (-(tokenExponent (some ('e', .minus, List.replicate 20 9)) -
        (tokenDecimals (some [5]) : Int))).toNat ∣ tokenMantissa [1] (some [5])) ∧
    parse_wei_optimized
        (renderToken .nosign [1] (some [5]) (some ('e', .minus, List.replicate 20 9))) =
      .error (-3) ∧
    (Except.error (-3) : Except Int Nat) ≠ .error (-2) := by
  refine ⟨by decide, ?_, ?_, by intro h; injection h with h2; exact absurd h2 (by decide)⟩
  · intro hdvd
    have hexp : (-(tokenExponent (some ('e', SignO.minus, List.replicate 20 9)) -
        (tokenDecimals (some [5]) : Int))).toNat = 100000000000000000000 := by decide
    have hm : tokenMantissa [1] (some [5]) = 15 := by decide
    rw [hexp, hm] at hdvd
    have h15 : 10 ^ (100000000000000000000 : Nat) ≤ 15 :=
      Nat.le_of_dvd (by norm_num) hdvd
    have h16 : (100 : Nat) ≤ 10 ^ (100000000000000000000 : Nat) := by
      calc (100 : Nat) = 10 ^ (2 : Nat) := by norm_num
        _ ≤ 10 ^ (100000000000000000000 : Nat) :=
          Nat.pow_le_pow_right (by norm_num) (by norm_num)
    exact absurd (le_trans h16 h15) (by norm_num)
  · rw [parse_renderToken .nosign [1] (some [5]) (some ('e', .minus, List.replicate 20 9))
      (by decide) (by decide)
      (fun f hf => by injection hf with h; subst h; decide)
      (fun p hp => by injection hp with h; subst h; decide)
      (fun p hp => by injection hp with h; subst h; exact ⟨by decide, by decide⟩)]
    rw [if_pos (by decide)]

/-- C3 amended: a character outside the numeric class in the mantissa
region, or a mantissa region without digits, yields the invalid-character
code -1; a valid token whose exponent fits the C long and whose net power
is negative, above LONG_MIN, and leaves a remainder yields the distinct
non-integer code -2. -/
theorem claim_C3_error_kinds :
    (∀ s : List Char,
      (∃ c ∈ (splitAtExp s).1, isDigitChar c = false ∧ c ≠ '.' ∧ c ≠ '+' ∧ c ≠ '-') →
      parse_wei_optimized s = .error (-1)) ∧
    (∀ s : List Char, (∀ c ∈ (splitAtExp s).1, isDigitChar c = false) →
      parse_wei_optimized s = .error (-1)) ∧
    (∀ (sg : SignO) (ip : List Nat) (fp : Option (List Nat))
        (ex : Option (Char × SignO × List Nat)),
      ip ≠ [] → (∀ d ∈ ip, d < 10) → (∀ f ∈ fp, ∀ d ∈ f, d < 10) →
      (∀ p ∈ ex, isExpChar p.1 = true) → (∀ p ∈ ex, p.2.2 ≠ [] ∧ ∀ d ∈ p.2.2, d < 10) →
      LONG_MIN ≤ tokenExponent ex → tokenExponent ex ≤ LONG_MAX →
      LONG_MIN < tokenExponent ex - (tokenDecimals fp : Int) →
      tokenExponent ex - (tokenDecimals fp : Int) < 0 →
      ¬(10 ^ (-(tokenExponent ex - (tokenDecimals fp : Int))).toNat ∣ tokenMantissa ip fp) →
      parse_wei_optimized (renderToken sg ip fp ex) = .error (-2)) := by
  refine ⟨parse_invalid_char, parse_no_digits, ?_⟩
  intro sg ip fp ex hip h1 h2 h3 h4 hlo hhi hdef hnp hdvd
  rw [parse_renderToken sg ip fp ex hip h1 h2 h3 h4]
  rw [clampLong_eq_self _ hlo hhi]
  rw [if_neg (by omega), if_neg (by omega), if_pos hnp]
  have hmod : tokenMantissa ip fp %
      10 ^ (-(tokenExponent ex - (tokenDecimals fp : Int))).toNat ≠ 0 := by
    intro h
    exact hdvd (Nat.dvd_iff_mod_eq_zero.mpr h)
  rw [if_pos hmod]

/-- C5: every emitted Max Flow is the maximum over the edge values of the
closed sub-path (the valuesPath segment plus the closing edge); on a graph
whose edge destinations are in range, every emitted record is a real
closed walk of the graph whose recorded values are the actual edge
values; the 3-cycle with values 5, 9, 2 is reported as exactly one cycle
with Max Flow 9. -/
theorem claim_C5_max_flow :
    (∀ G : GraphDS, ∀ r ∈ (depthFirstSearch G).records,
      r.maxFlow = (r.segVals ++ [r.closing]).foldr max 0) ∧
    (∀ G : GraphDS, edgesInRange G → ∀ r ∈ (depthFirstSearch G).records, RecOk G r) ∧
    (depthFirstSearch threeCycleGraph).records =
      [{ num := 1, seg := [0, 1, 2], target := 0, segVals := [5, 9],
         closing := 2, maxFlow := 9 }] :=
  ⟨fun G => records_shape_dfs G, fun G hG => records_RecOk G hG, by decide⟩

/-- C6: insertEdge rejects an out-of-range endpoint with return code 0
leaving the graph untouched, and otherwise prepends the edge to the
source list with a copy of the value, bumps the edge counter and
returns 1. -/
theorem claim_C6_insertEdge (G : GraphDS) (v w : Int) (value : Nat) :
    ((v < 0 ∨ (G.vertexAmount : Int) ≤ v ∨ w < 0 ∨ (G.vertexAmount : Int) ≤ w) →
      insertEdge G v w value = (G, 0)) ∧
    (0 ≤ v → v < (G.vertexAmount : Int) → 0 ≤ w → w < (G.vertexAmount : Int) →
      G.adjList.length = G.vertexAmount →
      (insertEdge G v w value).2 = 1 ∧
      (insertEdge G v w value).1.vertexAmount = G.vertexAmount ∧
      (insertEdge G v w value).1.edgesAmount = G.edgesAmount + 1 ∧
      (insertEdge G v w value).1.adjList.getD v.toNat [] =
        { destination := w.toNat, transactionValue := value } :: G.adjList.getD v.toNat [] ∧
      (∀ u : Nat, u ≠ v.toNat →
        (insertEdge G v w value).1.adjList.getD u [] = G.adjList.getD u [])) := by
  constructor
  · intro h
    have hb : (decide (v < 0) || decide ((G.vertexAmount : Int) ≤ v) || decide (w < 0) ||
        decide ((G.vertexAmount : Int) ≤ w)) = true := by
      rcases h with h | h | h | h <;> simp [h]
    unfold insertEdge
    rw [if_pos hb]
  · intro h1 h2 h3 h4 hlen
    have hb : (decide (v < 0) || decide ((G.vertexAmount : Int) ≤ v) || decide (w < 0) ||
        decide ((G.vertexAmount : Int) ≤ w)) = false := by
      simp only [Bool.or_eq_false_iff, decide_eq_false_iff_not]
      omega
    unfold insertEdge
    rw [hb]
    simp only [Bool.false_eq_true, if_false]
    have hvn : v.toNat < G.adjList.length := by
      rw [hlen]
      omega
    refine ⟨trivial, trivial, trivial, ?_, ?_⟩
    · exact getD_set_self _ _ _ _ hvn
    · intro u hu
      exact getD_set_ne _ _ _ (fun he => hu he.symm)

/-- C7: once Visited a vertex is never re-entered: over any run on a
well-formed graph the sequence of recursiveDFS entries has no duplicate;
and an edge into a Visited vertex that is off the recursion stack changes
nothing except the valuesPath bookkeeping slot, emitting no cycle. -/
theorem claim_C7_visited_never_reentered :
    (∀ G : GraphDS, edgesInRange G → (depthFirstSearch G).trace.Nodup) ∧
    (∀ (G : GraphDS) (fuel : Nat) (t : DfsState) (e : Transaction),
      t.visited.getD e.destination false = true →
      t.recStack.getD e.destination false = false →
      dfsStep G fuel t e =
        { t with valuesPath := t.valuesPath.set (t.path.length - 1) e.transactionValue }) := by
  constructor
  · intro G hG
    unfold depthFirstSearch
    exact (dfs_roots_pres G hG (List.range G.vertexAmount) (initState G.vertexAmount)
      (DfsInv_init _) (fun v hv => List.mem_range.mp hv)).inv.tnodup
  · intro G fuel t e h1 h2
    show (if t.visited.getD e.destination false = false then _
      else if t.recStack.getD e.destination false = true then _ else _) = _
    rw [if_neg (fun h => by rw [h1] at h; simp at h),
        if_neg (fun h => by rw [h2] at h; simp at h)]

/-- C8: a self-loop with value 7 on any vertex of a well-formed graph is
reported as a one-vertex cycle, path A then back to A, with Max Flow 7. -/
theorem claim_C8_selfloop (G : GraphDS) (A : Nat) (hG : edgesInRange G)
    (hA : A < G.vertexAmount)
    (hedge : ({ destination := A, transactionValue := 7 } : Transaction) ∈
      G.adjList.getD A []) :
    ∃ r ∈ (depthFirstSearch G).records,
      r.seg = [A] ∧ r.target = A ∧ r.segVals = [] ∧ r.closing = 7 ∧ r.maxFlow = 7 :=
  selfloop_reported G hG A 7 hA hedge

/-- C9: a leading sign is consumed without effect, so a signed token
parses to the same value as its unsigned body, and every successfully
parsed value is nonnegative. -/
theorem claim_C9_sign_discarded :
    (∀ T : List Char, (∀ c, T.head? = some c → c ≠ '+' ∧ c ≠ '-') →
      parse_wei_optimized ('-' :: T) = parse_wei_optimized T ∧
      parse_wei_optimized ('+' :: T) = parse_wei_optimized T) ∧
    (∀ (s : List Char) (v : Nat), parse_wei_optimized s = .ok v → (0 : Int) ≤ (v : Int)) :=
  ⟨parse_sign_ignored, fun _ v _ => Int.natCast_nonneg v⟩

/-- C10 as stated is false: the syntactically valid token 1.5e has an
empty exponent suffix yet the parser does not succeed with the mantissa
value, it reports the non-integer error. -/
theorem claim_C10_counterexample :
    parse_wei_optimized ['1', '.', '5', 'e'] = .error (-2) ∧
    (parse_wei_optimized ['1', '.', '5', 'e']).toOption = none :=
  ⟨rfl, rfl⟩

/-- C10 amended: the exponent suffix is never validated; whenever strtol
finds no parsable integer after the marker, the token parses exactly as
its mantissa region alone with exponent zero, so tokens like 5e and 5eX
succeed with the mantissa value rather than being rejected. -/
theorem claim_C10_exp_suffix_ignored (mreg suffix : List Char) (mk : Char)
    (hmk : isExpChar mk = true) (hm : ∀ c ∈ mreg, isExpChar c = false)
    (hs : noParsableInt suffix = true) :
    parse_wei_optimized (mreg ++ mk :: suffix) = parse_wei_optimized mreg :=
  parse_exp_suffix_ignored mreg suffix mk hmk hm hs

-- # Witnesses

theorem claim_C2_witness :
    parse_wei_optimized ['1', '.', '2', '3', 'e', '4'] = .ok 12300 ∧
    parse_wei_optimized ['5', '4', 'e', '1', '8'] = .ok 54000000000000000000 ∧
    parse_wei_optimized ['1', '0', '0', '0'] = .ok 1000 := by
  have h := (claim_C2_valid_token_value SignO.nosign [1] (some [2, 3])
    (some ('e', SignO.nosign, [4])) (by decide) (by decide)
    (fun f hf => by injection hf with h; subst h; decide)
    (fun p hp => by injection hp with h; subst h; decide)
    (fun p hp => by injection hp with h; subst h; decide)
    (by decide) (by decide) (by decide)).1 (by decide)
  exact ⟨h, rfl, rfl⟩

theorem claim_C3_witness :
    parse_wei_optimized ['1', '2', 'x', '3'] = .error (-1) ∧
    parse_wei_optimized ['1', '.', '2', '3', 'e', '1'] = .error (-2) := by
  constructor
  · exact claim_C3_error_kinds.1 ['1', '2', 'x', '3']
      ⟨'x', by decide, by decide, by decide, by decide, by decide⟩
  · exact claim_C3_error_kinds.2.2 SignO.nosign [1] (some [2, 3])
      (some ('e', SignO.nosign, [1])) (by decide) (by decide)
      (fun f hf => by injection hf with h; subst h; decide)
      (fun p hp => by injection hp with h; subst h; decide)
      (fun p hp => by injection hp with h; subst h; decide)
      (by decide) (by decide) (by decide) (by decide) (by decide)

theorem claim_C4_witness :
    getVertexIndex (internAll ["a", "b", "a"]) "b" < (internAll ["a", "b", "a"]).length :=
  (claim_C4_interning_bijection ["a", "b", "a"]).2.1 "b" (by decide)

theorem claim_C5_witness :
    ({ num := 1, seg := [0, 1, 2], target := 0, segVals := [5, 9], closing := 2,
       maxFlow := 9 } : CycleRecord).maxFlow = (([5, 9] : List Nat) ++ [2]).foldr max 0 ∧
    RecOk threeCycleGraph ⟨1, [0, 1, 2], 0, [5, 9], 2, 9⟩ :=
  ⟨claim_C5_max_flow.1 threeCycleGraph _ (by decide),
   claim_C5_max_flow.2.1 threeCycleGraph (by unfold edgesInRange; decide) _ (by decide)⟩

theorem claim_C6_witness :
    insertEdge (initGraph 2) 5 0 1 = (initGraph 2, 0) ∧
    (insertEdge (initGraph 2) 0 1 7).2 = 1 ∧
    (insertEdge (initGraph 2) 0 1 7).1.edgesAmount = 1 := by
  refine ⟨?_, ?_, ?_⟩
  · exact (claim_C6_insertEdge (initGraph 2) 5 0 1).1 (Or.inr (Or.inl (by decide)))
  · exact ((claim_C6_insertEdge (initGraph 2) 0 1 7).2 (by decide) (by decide) (by decide)
      (by decide) (by decide)).1
  · exact ((claim_C6_insertEdge (initGraph 2) 0 1 7).2 (by decide) (by decide) (by decide)
      (by decide) (by decide)).2.2.1

theorem claim_C7_witness :
    (depthFirstSearch threeCycleGraph).trace.Nodup ∧
    dfsStep threeCycleGraph 1 ⟨[true], [false], [0], [0], [], 0, [0]⟩ ⟨0, 3⟩ =
      { (⟨[true], [false], [0], [0], [], 0, [0]⟩ : DfsState) with
          valuesPath := ([0] : List Nat).set 0 3 } := by
  constructor
  · exact claim_C7_visited_never_reentered.1 threeCycleGraph (by unfold edgesInRange; decide)
  · exact claim_C7_visited_never_reentered.2 threeCycleGraph 1
      ⟨[true], [false], [0], [0], [], 0, [0]⟩ ⟨0, 3⟩ (by decide) (by decide)

theorem claim_C8_witness :
    ∃ r ∈ (depthFirstSearch selfLoopGraph).records,
      r.seg = [0] ∧ r.target = 0 ∧ r.segVals = [] ∧ r.closing = 7 ∧ r.maxFlow = 7 :=
  claim_C8_selfloop selfLoopGraph 0 (by unfold edgesInRange; decide) (by decide) (by decide)

theorem claim_C9_witness :
    parse_wei_optimized ['-', '5', 'e', '1', '8'] = parse_wei_optimized ['5', 'e', '1', '8'] ∧
    parse_wei_optimized ['5', 'e', '1', '8'] = .ok 5000000000000000000 :=
  ⟨(claim_C9_sign_discarded.1 ['5', 'e', '1', '8']
      (fun c hc => by injection hc with h; subst h; decide)).1,
   rfl⟩

theorem claim_C10_witness :
    parse_wei_optimized ['5', 'e'] = parse_wei_optimized ['5'] ∧
    parse_wei_optimized ['5', 'e', 'X'] = parse_wei_optimized ['5'] ∧
    parse_wei_optimized ['5'] = .ok 5 := by
  refine ⟨?_, ?_, rfl⟩
  · exact claim_C10_exp_suffix_ignored ['5'] [] 'e' (by decide) (by decide) (by decide)
  · exact claim_C10_exp_suffix_ignored ['5'] ['X'] 'e' (by decide) (by decide) (by decide)

-- # Fuel adequacy: the bounded model equals the unbounded C recursion

theorem countP_false_set_true (l : List Bool) :
    ∀ v : Nat, v < l.length → l.getD v false = false →
      (l.set v true).countP (fun b => b = false) + 1 = l.countP (fun b => b = false) := by
  induction l with
  | nil => intro v hv; simp at hv
  | cons a l ih =>
    intro v hv h
    cases v with
    | zero =>
      have ha : a = false := h
      subst ha
      simp [List.countP_cons]
    | succ v =>
      have h2 : l.getD v false = false := h
      have hv2 : v < l.length := by simpa using hv
      show ((a :: l.set v true).countP fun b => b = false) + 1 = _
      rw [List.countP_cons, List.countP_cons]
      have := ih v hv2 h2
      omega

theorem one_le_countP_false (l : List Bool) (v : Nat) (hv : v < l.length)
    (h : l.getD v false = false) : 1 ≤ l.countP (fun b => b = false) := by
  have hmem : (false : Bool) ∈ l := by
    rw [List.getD_eq_getElem _ _ hv] at h
    rw [← h]
    exact List.getElem_mem hv
  exact List.countP_pos_iff.mpr ⟨false, hmem, by decide⟩

theorem countP_false_mono (l1 : List Bool) :
    ∀ l2 : List Bool, l1.length = l2.length →
      (∀ u, l1.getD u false = true → l2.getD u false = true) →
      l2.countP (fun b => b = false) ≤ l1.countP (fun b => b = false) := by
  induction l1 with
  | nil =>
    intro l2 hlen _
    have : l2 = [] := by
      cases l2 with
      | nil => rfl
      | cons b l2 => simp at hlen
    subst this
    simp
  | cons a l1 ih =>
    intro l2 hlen hmono
    cases l2 with
    | nil => simp at hlen
    | cons b l2 =>
      have hlen2 : l1.length = l2.length := by simpa using hlen
      have hhead : a = true → b = true := fun h => hmono 0 h
      have htail : ∀ u, l1.getD u false = true → l2.getD u false = true :=
        fun u h => hmono (u + 1) h
      have := ih l2 hlen2 htail
      rw [List.countP_cons, List.countP_cons]
      cases a with
      | true =>
        rw [hhead rfl]
        omega
      | false =>
        have h2 : (if (decide ((false : Bool) = false)) = true then 1 else 0) = 1 := by decide
        cases b with
        | true =>
          have h3 : (if (decide ((true : Bool) = false)) = true then 1 else 0) = 0 := by decide
          omega
        | false => omega

theorem freeCount_mark (s : DfsState) (v : Nat) (hInv : DfsInv n s)
    (hv : v < n) (hvis : Vis s v = false) :
    freeCount (dfsMark s v) + 1 = freeCount s := by
  exact countP_false_set_true s.visited v (by rw [hInv.vlen]; exact hv) hvis

theorem freeCount_pos (s : DfsState) (v : Nat) (hInv : DfsInv n s)
    (hv : v < n) (hvis : Vis s v = false) : 1 ≤ freeCount s :=
  one_le_countP_false s.visited v (by rw [hInv.vlen]; exact hv) hvis

theorem freeCount_le_of_pres {n : Nat} {s s2 : DfsState} (hInv : DfsInv n s)
    (hpres : DfsPres n s s2) : freeCount s2 ≤ freeCount s := by
  apply countP_false_mono s.visited s2.visited
  · rw [hInv.vlen, hpres.inv.vlen]
  · exact hpres.vis

theorem freeCount_le_length (s : DfsState) : freeCount s ≤ s.visited.length :=
  List.countP_le_length _

theorem dfsVisit_fuel_ext (G : GraphDS) (hG : edgesInRange G) :
    ∀ fuel1 fuel2 : Nat, ∀ (s : DfsState) (v : Nat),
      DfsInv G.vertexAmount s → v < G.vertexAmount → Vis s v = false →
      freeCount s ≤ fuel1 → freeCount s ≤ fuel2 →
      dfsVisit G fuel1 s v = dfsVisit G fuel2 s v := by
  intro fuel1
  induction fuel1 with
  | zero =>
    intro fuel2 s v hInv hv hvis hf1 _
    have := freeCount_pos s v hInv hv hvis
    omega
  | succ f1 ih =>
    intro fuel2 s v hInv hv hvis hf1 hf2
    have hpos := freeCount_pos s v hInv hv hvis
    obtain ⟨f2, rfl⟩ : ∃ m, fuel2 = m + 1 := ⟨fuel2 - 1, by omega⟩
    rw [dfsVisit_succ, dfsVisit_succ]
    have hInvM : DfsInv G.vertexAmount (dfsMark s v) := DfsInv_mark _ s v hInv hv hvis
    have hfm : freeCount (dfsMark s v) + 1 = freeCount s := freeCount_mark s v hInv hv hvis
    have hfold : ∀ (l : List Transaction) (t : DfsState),
        DfsInv G.vertexAmount t → (∀ e ∈ l, e.destination < G.vertexAmount) →
        freeCount t ≤ f1 → freeCount t ≤ f2 →
        l.foldl (dfsStep G f1) t = l.foldl (dfsStep G f2) t := by
      intro l
      induction l with
      | nil => intro t _ _ _ _; rfl
      | cons e l ihl =>
        intro t hInvT hdest hb1 hb2
        rw [List.foldl_cons, List.foldl_cons]
        have hde : e.destination < G.vertexAmount := hdest e (by simp)
        have hsteps : dfsStep G f1 t e = dfsStep G f2 t e := by
          show (if t.visited.getD e.destination false = false then
              dfsVisit G f1
                { t with valuesPath := t.valuesPath.set (t.path.length - 1) e.transactionValue }
                e.destination
            else if t.recStack.getD e.destination false = true then _ else _) =
            (if t.visited.getD e.destination false = false then
              dfsVisit G f2
                { t with valuesPath := t.valuesPath.set (t.path.length - 1) e.transactionValue }
                e.destination
            else if t.recStack.getD e.destination false = true then _ else _)
          by_cases hc1 : t.visited.getD e.destination false = false
          · rw [if_pos hc1, if_pos hc1]
            exact ih f2
              { t with valuesPath := t.valuesPath.set (t.path.length - 1) e.transactionValue }
              e.destination (DfsInv_setVals _ t _ _ hInvT) hde hc1 hb1 hb2
          · rw [if_neg hc1, if_neg hc1]
        rw [hsteps]
        have hpres : DfsPres G.vertexAmount t (dfsStep G f2 t e) :=
          dfs_step_pres G f2 (dfs_pres G hG f2) t e hInvT hde
        exact ihl (dfsStep G f2 t e) hpres.inv (fun e2 he2 => hdest e2 (by simp [he2]))
          (le_trans (freeCount_le_of_pres hInvT hpres) hb1)
          (le_trans (freeCount_le_of_pres hInvT hpres) hb2)
    rw [hfold (G.adjList.getD v []) (dfsMark s v) hInvM (adj_dest_lt G hG v)
      (by omega) (by omega)]

/-- The recursion budget of the model is immaterial: running the whole
traversal with any budget of at least vertexAmount produces exactly
depthFirstSearch, because a nested entry always marks a fresh vertex, so
the recursion can never go deeper than the vertex count. The model with
fuel vertexAmount therefore agrees with the unbounded C recursion. -/
theorem depthFirstSearch_any_fuel (G : GraphDS) (hG : edgesInRange G) (F : Nat)
    (hF : G.vertexAmount ≤ F) :
    (List.range G.vertexAmount).foldl
      (fun s v => if s.visited.getD v false = true then s else dfsVisit G F s v)
      (initState G.vertexAmount) = depthFirstSearch G := by
  unfold depthFirstSearch
  have haux : ∀ (roots : List Nat) (s : DfsState), DfsInv G.vertexAmount s →
      (∀ v ∈ roots, v < G.vertexAmount) →
      roots.foldl
        (fun s v => if s.visited.getD v false = true then s else dfsVisit G F s v) s =
      roots.foldl
        (fun s v => if s.visited.getD v false = true then s
          else dfsVisit G G.vertexAmount s v) s := by
    intro roots
    induction roots with
    | nil => intro s _ _; rfl
    | cons w roots ih =>
      intro s hInv hroots
      rw [List.foldl_cons, List.foldl_cons]
      have hw : w < G.vertexAmount := hroots w (by simp)
      have hfb : freeCount s ≤ G.vertexAmount := by
        have h1 := freeCount_le_length s
        rw [hInv.vlen] at h1
        exact h1
      have hstep : (if s.visited.getD w false = true then s else dfsVisit G F s w) =
          (if s.visited.getD w false = true then s else dfsVisit G G.vertexAmount s w) := by
        by_cases hc : s.visited.getD w false = true
        · rw [if_pos hc, if_pos hc]
        · rw [if_neg hc, if_neg hc]
          exact dfsVisit_fuel_ext G hG F G.vertexAmount s w hInv hw (bool_eq_false hc)
            (le_trans hfb hF) hfb
      rw [hstep]
      have hpres : DfsPres G.vertexAmount s
          (if s.visited.getD w false = true then s else dfsVisit G G.vertexAmount s w) := by
        by_cases hc : s.visited.getD w false = true
        · rw [if_pos hc]
          exact DfsPres.ofInv hInv
        · rw [if_neg hc]
          exact dfs_pres G hG _ s w hInv hw (bool_eq_false hc)
      exact ih _ hpres.inv (fun u hu => hroots u (by simp [hu]))
  exact haux (List.range G.vertexAmount) (initState G.vertexAmount) (DfsInv_init _)
    (fun v hv => List.mem_range.mp hv)
